import Mathlib

/-!
Verification of the ort merge engine of the gbwf CLI (Go package `ort`,
current revision: the `Merge` / `isFastForward` pair that checks the
strategy first, fast-forwards under every recognised strategy, records a
`MERGE_HEAD` reference on conflict, and guards every progress write with a
nil check).

The object model is content addressed, so a blob hash determines its
content; we identify blob hashes with blob contents (`String`).  External
collaborators that the engine only calls (the object store's `MergeBase`,
the textual three-way merger `diff3.Merge`, and `Patch(...).Stats()`) are
modelled as explicit function parameters in `GitEnv`; everything else is
translated from the Go source.
-/

abbrev Hash := String

/-- Keys of an association list. -/
def keysA {α : Type} (l : List (String × α)) : List String :=
  l.map Prod.fst

/-- Association-list lookup keyed by strings; first binding wins, mirroring a
Go map read (each Go map has unique keys, which we carry as `Nodup` facts). -/
def lookupA {α : Type} : List (String × α) → String → Option α
  | [], _ => none
  | (k, v) :: rest, q => if k = q then some v else lookupA rest q

/-- Association-list update: overwrite the binding of `k` if present,
otherwise append a fresh binding (a Go map write). -/
def setAssoc {α : Type} : List (String × α) → String → α → List (String × α)
  | [], k, v => [(k, v)]
  | (k', v') :: rest, k, v =>
    if k' = k then (k, v) :: rest else (k', v') :: setAssoc rest k v

/-- Association-list deletion of every binding of `k` (a Go map delete /
file removal). -/
def eraseAssoc {α : Type} (l : List (String × α)) (k : String) : List (String × α) :=
  l.filter (fun e => !decide (e.fst = k))

theorem keysA_nil {α : Type} : keysA ([] : List (String × α)) = [] := rfl

theorem keysA_cons {α : Type} (k : String) (v : α) (l : List (String × α)) :
    keysA ((k, v) :: l) = k :: keysA l := rfl

theorem lookupA_eq_some_mem {α : Type} {l : List (String × α)} {q : String} {v : α}
    (h : lookupA l q = some v) : (q, v) ∈ l := by
  induction l with
  | nil => simp [lookupA] at h
  | cons e rest ih =>
    obtain ⟨k, w⟩ := e
    by_cases hk : k = q
    · subst hk
      simp [lookupA] at h
      simp [h]
    · simp [lookupA, hk] at h
      exact List.mem_cons_of_mem _ (ih h)

theorem lookupA_mem_keys {α : Type} {l : List (String × α)} {q : String} {v : α}
    (h : lookupA l q = some v) : q ∈ keysA l :=
  List.mem_map.mpr ⟨(q, v), lookupA_eq_some_mem h, rfl⟩

theorem lookupA_isSome_of_mem_keys {α : Type} {l : List (String × α)} {q : String}
    (h : q ∈ keysA l) : (lookupA l q).isSome := by
  induction l with
  | nil => simp [keysA] at h
  | cons e rest ih =>
    obtain ⟨k, w⟩ := e
    by_cases hk : k = q
    · simp [lookupA, hk]
    · rw [keysA_cons] at h
      rcases List.mem_cons.mp h with h' | h'
      · exact absurd h'.symm hk
      · simp only [lookupA, hk, if_false]
        exact ih h'

theorem lookupA_none_of_not_mem_keys {α : Type} {l : List (String × α)} {q : String}
    (h : q ∉ keysA l) : lookupA l q = none := by
  cases hl : lookupA l q with
  | none => rfl
  | some v => exact absurd (lookupA_mem_keys hl) h

theorem lookupA_of_mem_nodup {α : Type} {l : List (String × α)} {q : String} {v : α}
    (hm : (q, v) ∈ l) (hn : (keysA l).Nodup) : lookupA l q = some v := by
  induction l with
  | nil => simp at hm
  | cons e rest ih =>
    obtain ⟨k, w⟩ := e
    rw [keysA_cons] at hn
    have hn1 : k ∉ keysA rest := (List.nodup_cons.mp hn).1
    have hn2 : (keysA rest).Nodup := (List.nodup_cons.mp hn).2
    rcases List.mem_cons.mp hm with h | h
    · have h1 : q = k := congrArg Prod.fst h
      have h2 : v = w := congrArg Prod.snd h
      subst h1; subst h2
      simp [lookupA]
    · have hkq : k ≠ q := by
        intro hk
        subst hk
        exact hn1 (List.mem_map.mpr ⟨(k, v), h, rfl⟩)
      simp [lookupA, hkq]
      exact ih h hn2

theorem lookupA_setAssoc {α : Type} (l : List (String × α)) (k : String) (v : α)
    (q : String) :
    lookupA (setAssoc l k v) q = if k = q then some v else lookupA l q := by
  induction l with
  | nil => simp [setAssoc, lookupA]
  | cons e rest ih =>
    obtain ⟨k', w⟩ := e
    by_cases hk : k' = k
    · subst hk
      by_cases hq : k' = q <;> simp [setAssoc, lookupA, hq]
    · by_cases hq : k' = q
      · subst hq
        have hne : ¬ k = k' := fun h => hk h.symm
        simp [setAssoc, hk, lookupA, hne]
      · simp [setAssoc, hk, lookupA, hq, ih]

theorem lookupA_eraseAssoc {α : Type} (l : List (String × α)) (k q : String) :
    lookupA (eraseAssoc l k) q = if k = q then none else lookupA l q := by
  induction l with
  | nil => simp [eraseAssoc, lookupA]
  | cons e rest ih =>
    obtain ⟨k', w⟩ := e
    by_cases hkk : k' = k
    · subst hkk
      by_cases hq : k' = q
      · subst hq
        simp [eraseAssoc, lookupA] at ih ⊢
        simpa using ih
      · simp [eraseAssoc, lookupA, hq] at ih ⊢
        simpa [hq] using ih
    · by_cases hq : k' = q
      · subst hq
        have hne : ¬ k = k' := fun h => hkk h.symm
        simp [eraseAssoc, lookupA, hkk, hne]
      · simp [eraseAssoc, lookupA, hkk, hq] at ih ⊢
        simpa [hq] using ih

theorem mem_keys_setAssoc {α : Type} {l : List (String × α)} {k : String} {v : α}
    {q : String} (h : q ∈ keysA (setAssoc l k v)) : q ∈ keysA l ∨ q = k := by
  induction l with
  | nil =>
    simp [setAssoc, keysA] at h
    simp [h]
  | cons e rest ih =>
    obtain ⟨k', w⟩ := e
    by_cases hk : k' = k
    · subst hk
      simp only [setAssoc, if_pos rfl, keysA_cons] at h
      rcases List.mem_cons.mp h with h' | h'
      · simp [h']
      · left
        rw [keysA_cons]
        exact List.mem_cons_of_mem _ h'
    · simp only [setAssoc, if_neg hk, keysA_cons] at h
      rcases List.mem_cons.mp h with h' | h'
      · left
        rw [keysA_cons]
        exact List.mem_cons.mpr (Or.inl h')
      · rcases ih h' with h'' | h''
        · left
          rw [keysA_cons]
          exact List.mem_cons_of_mem _ h''
        · simp [h'']

theorem setAssoc_keys_nodup {α : Type} {l : List (String × α)} (k : String) (v : α)
    (hn : (keysA l).Nodup) : (keysA (setAssoc l k v)).Nodup := by
  induction l with
  | nil => simp [setAssoc, keysA]
  | cons e rest ih =>
    obtain ⟨k', w⟩ := e
    rw [keysA_cons] at hn
    have hn1 : k' ∉ keysA rest := (List.nodup_cons.mp hn).1
    have hn2 : (keysA rest).Nodup := (List.nodup_cons.mp hn).2
    by_cases hk : k' = k
    · subst hk
      simp only [setAssoc, if_pos rfl, keysA_cons]
      exact List.nodup_cons.mpr ⟨hn1, hn2⟩
    · simp only [setAssoc, if_neg hk, keysA_cons]
      refine List.nodup_cons.mpr ⟨?_, ih hn2⟩
      intro ha
      rcases mem_keys_setAssoc ha with h | h
      · exact hn1 h
      · exact hk h

/-- A commit object: parent hashes, a flattened tree snapshot (full path to
blob content), author/committer metadata and a message. -/
structure Commit where
  parents : List Hash
  tree : List (String × String)
  author : String
  committer : String
  message : String
deriving DecidableEq

/-- The mutable repository state one `Merge` call owns: the commit store, the
references, the name HEAD resolves to, the shallow list, the working tree and
the index (both flattened path-to-content maps). -/
structure RepoState where
  commits : List (Hash × Commit)
  refs : List (String × Hash)
  headName : String
  shallow : List Hash
  worktree : List (String × String)
  index : List (String × String)
deriving DecidableEq

theorem length_filter_not_mem_cons_lt {l s : List String} {h : String}
    (hl : h ∈ l) (hs : h ∉ s) :
    (l.filter (fun x => !decide (x ∈ h :: s))).length <
      (l.filter (fun x => !decide (x ∈ s))).length := by
  induction l with
  | nil => cases hl
  | cons a t ih =>
    by_cases hah : a = h
    · subst hah
      have e1 : List.filter (fun x => !decide (x ∈ a :: s)) (a :: t)
          = List.filter (fun x => !decide (x ∈ a :: s)) t :=
        List.filter_cons_of_neg (by simp)
      have e2 : List.filter (fun x => !decide (x ∈ s)) (a :: t)
          = a :: List.filter (fun x => !decide (x ∈ s)) t :=
        List.filter_cons_of_pos (by simp [hs])
      rw [e1, e2]
      have hsub : List.Sublist (List.filter (fun x => !decide (x ∈ a :: s)) t)
          (List.filter (fun x => !decide (x ∈ s)) t) :=
        List.monotone_filter_right t (fun x hx => by
          simp only [Bool.not_eq_true', decide_eq_false_iff_not, List.mem_cons] at hx ⊢
          exact fun hxs => hx (Or.inr hxs))
      exact Nat.lt_succ_of_le hsub.length_le
    · have hl' : h ∈ t := by
        rcases List.mem_cons.mp hl with h' | h'
        · exact absurd h'.symm hah
        · exact h'
      by_cases has : a ∈ s
      · have e1 : List.filter (fun x => !decide (x ∈ h :: s)) (a :: t)
            = List.filter (fun x => !decide (x ∈ h :: s)) t :=
          List.filter_cons_of_neg (by simp [has])
        have e2 : List.filter (fun x => !decide (x ∈ s)) (a :: t)
            = List.filter (fun x => !decide (x ∈ s)) t :=
          List.filter_cons_of_neg (by simp [has])
        rw [e1, e2]
        exact ih hl'
      · have e1 : List.filter (fun x => !decide (x ∈ h :: s)) (a :: t)
            = a :: List.filter (fun x => !decide (x ∈ h :: s)) t :=
          List.filter_cons_of_pos (by simp [hah, has])
        have e2 : List.filter (fun x => !decide (x ∈ s)) (a :: t)
            = a :: List.filter (fun x => !decide (x ∈ s)) t :=
          List.filter_cons_of_pos (by simp [has])
        rw [e1, e2]
        simpa using Nat.succ_lt_succ (ih hl')

/-- The commit walk inside `isFastForward`: a preorder (depth-first) traversal
of the ancestry of the top of `stack`, skipping hashes already `seen`,
answering whether `old` is yielded.  `seen` starts as the parents of the
earliest shallow commit (`parentsToIgnore`), which the iterator pre-marks so
it never dereferences objects beyond the shallow boundary; parents already
seen are filtered out when pushed, unseen ones are resolved when popped and a
missing object aborts the walk (`none`, go-git's object-not-found error). -/
def dfsFound (commits : List (Hash × Commit)) (old : Hash) :
    List Hash → List Hash → Option Bool
  | [], _ => some false
  | h :: rest, seen =>
    match hc : lookupA commits h with
    | none => none
    | some c =>
      if hseen : h ∈ seen then dfsFound commits old rest seen
      else if h = old then some true
      else
        dfsFound commits old
          (c.parents.filter (fun q => !decide (q ∈ h :: seen)) ++ rest) (h :: seen)
termination_by stack seen =>
  (((keysA commits).filter (fun x => !decide (x ∈ seen))).length, stack.length)
decreasing_by
  · apply Prod.Lex.right
    simp
  · apply Prod.Lex.left
    exact length_filter_not_mem_cons_lt (lookupA_mem_keys hc) hseen

/-- `isFastForward(s, old, new, earliestShallow)` from the source: resolve the
new commit, resolve the earliest shallow commit (when present) to obtain the
parents to ignore, then walk `new`'s ancestry looking for `old`. -/
def isFastForward (commits : List (Hash × Commit)) (old newHash : Hash)
    (earliestShallow : Option Hash) : Option Bool :=
  match lookupA commits newHash with
  | none => none
  | some _ =>
    match earliestShallow with
    | none => dfsFound commits old [newHash] []
    | some sh =>
      match lookupA commits sh with
      | none => none
      | some sc => dfsFound commits old [newHash] sc.parents

/-- One step of ancestry: `b` is a parent of the commit stored at `a`. -/
def parentStep (commits : List (Hash × Commit)) (a b : Hash) : Prop :=
  ∃ c, lookupA commits a = some c ∧ b ∈ c.parents

/-- `Reaches commits a b`: `b` is `a` itself or an ancestor of `a`, following
parent links through the commit store. -/
def Reaches (commits : List (Hash × Commit)) : Hash → Hash → Prop :=
  Relation.ReflTransGen (parentStep commits)

/-- `anc` is a strict (proper) ancestor of `desc`: reachable from `desc` by at
least one parent link. -/
def StrictAncestor (commits : List (Hash × Commit)) (anc desc : Hash) : Prop :=
  Relation.TransGen (parentStep commits) desc anc

/-- Every commit reachable from `root` is present in the store (the history
below `root` is not truncated). -/
def ClosedFrom (commits : List (Hash × Commit)) (root : Hash) : Prop :=
  ∀ x, Reaches commits root x → (lookupA commits x).isSome

/-- Invariant of the walk: every parent of an already-seen commit is either
still pending on the stack or itself seen. -/
def SeenInv (commits : List (Hash × Commit)) (stack seen : List Hash) : Prop :=
  ∀ s ∈ seen, ∀ c, lookupA commits s = some c → ∀ p ∈ c.parents, p ∈ stack ∨ p ∈ seen

theorem seen_closed_not_reaches {commits : List (Hash × Commit)} {seen : List Hash}
    {old : Hash}
    (hcl : ∀ s ∈ seen, ∀ c, lookupA commits s = some c → ∀ p ∈ c.parents, p ∈ seen)
    (hold : old ∉ seen) :
    ∀ x ∈ seen, ¬ Reaches commits x old := by
  intro x hx hr
  induction hr using Relation.ReflTransGen.head_induction_on with
  | refl => exact hold hx
  | head hstep _ ih =>
    obtain ⟨c, hlc, hp⟩ := hstep
    rename_i a b _
    exact ih (hcl a hx c hlc b hp)

theorem dfsFound_nil (commits : List (Hash × Commit)) (old : Hash) (seen : List Hash) :
    dfsFound commits old [] seen = some false :=
  dfsFound.eq_1 commits old seen

theorem dfsFound_cons_none {commits : List (Hash × Commit)} {old h : Hash}
    {rest seen : List Hash} (hc : lookupA commits h = none) :
    dfsFound commits old (h :: rest) seen = none := by
  rw [dfsFound.eq_2]
  split
  · rfl
  · rename_i c0 heq
    rw [hc] at heq
    cases heq

theorem dfsFound_cons_seen {commits : List (Hash × Commit)} {old h : Hash} {c : Commit}
    {rest seen : List Hash} (hc : lookupA commits h = some c) (hs : h ∈ seen) :
    dfsFound commits old (h :: rest) seen = dfsFound commits old rest seen := by
  rw [dfsFound.eq_2]
  split
  · rename_i heq
    rw [hc] at heq
    cases heq
  · rw [dif_pos hs]

theorem dfsFound_cons_found {commits : List (Hash × Commit)} {old h : Hash} {c : Commit}
    {rest seen : List Hash} (hc : lookupA commits h = some c) (hs : h ∉ seen)
    (he : h = old) :
    dfsFound commits old (h :: rest) seen = some true := by
  rw [dfsFound.eq_2]
  split
  · rename_i heq
    rw [hc] at heq
    cases heq
  · rw [dif_neg hs, if_pos he]

theorem dfsFound_cons_expand {commits : List (Hash × Commit)} {old h : Hash} {c : Commit}
    {rest seen : List Hash} (hc : lookupA commits h = some c) (hs : h ∉ seen)
    (he : ¬ h = old) :
    dfsFound commits old (h :: rest) seen =
      dfsFound commits old
        (c.parents.filter (fun q => !decide (q ∈ h :: seen)) ++ rest) (h :: seen) := by
  rw [dfsFound.eq_2]
  split
  · rename_i heq
    rw [hc] at heq
    cases heq
  · rename_i c0 heq
    rw [dif_neg hs, if_neg he]
    rw [hc] at heq
    injection heq with hcc
    rw [hcc]

theorem dfsFound_false_not_reaches (commits : List (Hash × Commit)) (old : Hash) :
    ∀ stack seen, dfsFound commits old stack seen = some false →
      SeenInv commits stack seen → old ∉ seen →
      ∀ x, x ∈ stack ∨ x ∈ seen → ¬ Reaches commits x old := by
  intro stack seen
  induction stack, seen using dfsFound.induct commits old with
  | case1 seen =>
    intro _ hinv hold x hx
    have hx' : x ∈ seen := by
      rcases hx with h | h
      · cases h
      · exact h
    refine seen_closed_not_reaches ?_ hold x hx'
    intro s hsm c hlc p hp
    rcases hinv s hsm c hlc p hp with h | h
    · cases h
    · exact h
  | case2 h rest seen hc =>
    intro hd
    rw [dfsFound_cons_none hc] at hd
    cases hd
  | case3 h rest seen c hc hseen ih =>
    intro hd hinv hold x hx
    rw [dfsFound_cons_seen hc hseen] at hd
    have hinv' : SeenInv commits rest seen := by
      intro s hsm c' hlc p hp
      rcases hinv s hsm c' hlc p hp with hmem | hmem
      · rcases List.mem_cons.mp hmem with h' | h'
        · subst h'
          exact Or.inr hseen
        · exact Or.inl h'
      · exact Or.inr hmem
    refine ih hd hinv' hold x ?_
    rcases hx with hmem | hmem
    · rcases List.mem_cons.mp hmem with h' | h'
      · subst h'
        exact Or.inr hseen
      · exact Or.inl h'
    · exact Or.inr hmem
  | case4 rest seen c hc hseen =>
    intro hd
    rw [dfsFound_cons_found hc hseen rfl] at hd
    cases hd
  | case5 h rest seen c hc hseen hne ih =>
    intro hd hinv hold x hx
    rw [dfsFound_cons_expand hc hseen hne] at hd
    have hinv' : SeenInv commits
        (c.parents.filter (fun q => !decide (q ∈ h :: seen)) ++ rest) (h :: seen) := by
      intro s hsm c' hlc p hp
      rcases List.mem_cons.mp hsm with hsh | hsh
      · rw [hsh] at hlc
        rw [hc] at hlc
        injection hlc with hcc
        subst hcc
        by_cases hpseen : p ∈ h :: seen
        · exact Or.inr hpseen
        · refine Or.inl (List.mem_append.mpr (Or.inl ?_))
          exact List.mem_filter.mpr ⟨hp, by simpa using hpseen⟩
      · rcases hinv s hsh c' hlc p hp with hmem | hmem
        · rcases List.mem_cons.mp hmem with h' | h'
          · subst h'
            exact Or.inr (List.mem_cons_self _ _)
          · exact Or.inl (List.mem_append.mpr (Or.inr h'))
        · exact Or.inr (List.mem_cons_of_mem _ hmem)
    have hold' : old ∉ h :: seen := by
      intro hm
      rcases List.mem_cons.mp hm with h' | h'
      · exact hne h'.symm
      · exact hold h'
    refine ih hd hinv' hold' x ?_
    rcases hx with hmem | hmem
    · rcases List.mem_cons.mp hmem with h' | h'
      · subst h'
        exact Or.inr (List.mem_cons_self _ _)
      · exact Or.inl (List.mem_append.mpr (Or.inr h'))
    · exact Or.inr (List.mem_cons_of_mem _ hmem)

theorem dfsFound_ne_none (commits : List (Hash × Commit)) (old root : Hash)
    (hcl : ClosedFrom commits root) :
    ∀ stack seen, (∀ x ∈ stack, Reaches commits root x) →
      dfsFound commits old stack seen ≠ none := by
  intro stack seen
  induction stack, seen using dfsFound.induct commits old with
  | case1 seen =>
    intro _ hd
    rw [dfsFound_nil] at hd
    cases hd
  | case2 h rest seen hc =>
    intro hst _
    have := hcl h (hst h (List.mem_cons_self _ _))
    rw [hc] at this
    cases this
  | case3 h rest seen c hc hseen ih =>
    intro hst
    rw [dfsFound_cons_seen hc hseen]
    exact ih fun x hx => hst x (List.mem_cons_of_mem _ hx)
  | case4 rest seen c hc hseen =>
    intro _ hd
    rw [dfsFound_cons_found hc hseen rfl] at hd
    cases hd
  | case5 h rest seen c hc hseen hne ih =>
    intro hst
    rw [dfsFound_cons_expand hc hseen hne]
    refine ih ?_
    intro x hx
    rcases List.mem_append.mp hx with hmem | hmem
    · have hx' : x ∈ c.parents := (List.mem_filter.mp hmem).1
      have hstep : parentStep commits h x := ⟨c, hc, hx'⟩
      exact Relation.ReflTransGen.tail (hst h (List.mem_cons_self _ _)) hstep
    · exact hst x (List.mem_cons_of_mem _ hmem)

theorem dfsFound_complete {commits : List (Hash × Commit)} {old root : Hash}
    (hcl : ClosedFrom commits root) (hr : Reaches commits root old) :
    dfsFound commits old [root] [] = some true := by
  cases hres : dfsFound commits old [root] [] with
  | none =>
    exact absurd hres
      (dfsFound_ne_none commits old root hcl [root] []
        (by intro x hx; rcases List.mem_singleton.mp hx with h; subst h; exact .refl))
  | some b =>
    cases b with
    | false =>
      have := dfsFound_false_not_reaches commits old [root] [] hres
        (by intro s hs; cases hs) (by intro hm; cases hm) root
        (Or.inl (List.mem_singleton.mpr rfl))
      exact absurd hr this
    | true => rfl

theorem isFastForward_complete {commits : List (Hash × Commit)} {old newH : Hash}
    (hcl : ClosedFrom commits newH) (hr : Reaches commits newH old) :
    isFastForward commits old newH none = some true := by
  have hsome : (lookupA commits newH).isSome := hcl newH .refl
  obtain ⟨c, hc⟩ := Option.isSome_iff_exists.mp hsome
  unfold isFastForward
  rw [hc]
  exact dfsFound_complete hcl hr

theorem isFastForward_self {commits : List (Hash × Commit)} {a : Hash} {c : Commit}
    (hc : lookupA commits a = some c) :
    isFastForward commits a a none = some true := by
  unfold isFastForward
  rw [hc]
  exact dfsFound_cons_found hc (by intro h; cases h) rfl

/-- A structural change between two tree snapshots, as the object store's
tree diff produces it (go-git `object.Change`): pre-change and post-change
entry, each a path name plus blob content (hash); an absent side is encoded by
an empty name, matching the Go zero value of `ChangeEntry`. -/
structure Change where
  fromName : String
  fromContent : String
  toName : String
  toContent : String
deriving DecidableEq

/-- The merkletrie action tags. -/
inductive MAction where
  | insert
  | modify
  | delete
deriving DecidableEq

/-- `Change.Action()` from go-git: `Insert` when the pre-change entry is
empty, `Delete` when the post-change entry is empty, `Modify` otherwise; a
change with both entries empty is malformed (an error in Go). -/
def changeAction (c : Change) : Option MAction :=
  if c.fromName = "" then
    if c.toName = "" then none else some .insert
  else if c.toName = "" then some .delete
  else some .modify

/-- Structural diff of two flattened tree snapshots, as the object store's
`Tree.Diff` produces it without rename detection: a `Delete` for every path of
`t1` absent from `t2`, a `Modify` for every path present in both with
different blob contents, an `Insert` for every path of `t2` absent from
`t1`. -/
def treeDiff (t1 t2 : List (String × String)) : List Change :=
  (t1.filterMap fun e =>
    match lookupA t2 e.fst with
    | none => some ⟨e.fst, e.snd, "", ""⟩
    | some c2 => if e.snd = c2 then none else some ⟨e.fst, e.snd, e.fst, c2⟩)
  ++ (t2.filterMap fun e =>
    match lookupA t1 e.fst with
    | none => some ⟨"", "", e.fst, e.snd⟩
    | some _ => none)

/-- The per-path pairing of up to two changes (ours, theirs) against the same
base. -/
structure ChangePair where
  ours : Option Change
  theirs : Option Change
deriving DecidableEq

/-- The zero value a Go map read yields for a missing key. -/
def emptyPair : ChangePair := ⟨none, none⟩

/-- The key under which `Merge` files a change: the post-change path, falling
back to the pre-change path when the post-change path is absent (deletion). -/
def changeKey (c : Change) : String :=
  if c.toName = "" then c.fromName else c.toName

/-- One step of the first keying loop of `Merge`: file `c` under its key,
populating the `ours` slot of the existing pair (or of a fresh empty pair). -/
def addOurs (m : List (String × ChangePair)) (c : Change) :
    List (String × ChangePair) :=
  let pr := (lookupA m (changeKey c)).getD emptyPair
  setAssoc m (changeKey c) { pr with ours := some c }

/-- One step of the second keying loop of `Merge`: as `addOurs`, for the
`theirs` slot. -/
def addTheirs (m : List (String × ChangePair)) (c : Change) :
    List (String × ChangePair) :=
  let pr := (lookupA m (changeKey c)).getD emptyPair
  setAssoc m (changeKey c) { pr with theirs := some c }

/-- The `changes` map of `Merge`: both diffs folded into one per-path plan
(kept in insertion order, one admissible iteration order of the Go map). -/
def buildPairs (baseToOur baseToTheir : List Change) :
    List (String × ChangePair) :=
  baseToTheir.foldl addTheirs (baseToOur.foldl addOurs [])

/-- `w.Filesystem.Create` followed by `io.Copy`: write `content` to `path` in
the working tree. -/
def fsCreate (st : RepoState) (path content : String) : RepoState :=
  { st with worktree := setAssoc st.worktree path content }

/-- `w.Add(path)`: stage the current working-tree content of `path`; staging a
path missing from the working tree records its deletion in the index. -/
def wAdd (st : RepoState) (path : String) : RepoState :=
  match lookupA st.worktree path with
  | some c => { st with index := setAssoc st.index path c }
  | none => { st with index := eraseAssoc st.index path }

/-- `w.Remove(path)` with the `index.ErrEntryNotFound` tolerance of its call
sites: drop `path` from both the working tree and the index, a no-op when
already absent. -/
def wRemove (st : RepoState) (path : String) : RepoState :=
  { st with worktree := eraseAssoc st.worktree path,
            index := eraseAssoc st.index path }

/-- The errors `Merge` can return. -/
inductive MergeError where
  | unsupportedStrategy
  | headNotFound
  | missingCommit
  | missingObject
  | fastForwardNotPossible
  | unrelatedHistories
  | mergeBaseFailed
  | malformedChange
  | nilDereference
  | mergeTextFailed
  | mergeConflict
deriving DecidableEq

/-- The external collaborators `Merge` calls but does not implement:
`MergeBase` (`none` models its error), the textual three-way merger
`diff3.Merge` applied to ours/base/theirs text plus the two branch labels
(`none` models its error, otherwise merged text plus conflict flag), and
`Patch(...).Stats()` rendered as text. -/
structure GitEnv where
  mergeBase : Hash → Hash → Option (List Hash)
  mergeText : String → String → String → String → String → Option (String × Bool)
  patchStats : Hash → Hash → String

/-- One iteration of the per-path resolution loop of `Merge`, for the pair
filed under `path`: the updated state, this path's conflict contribution to
`mergeHasConflict`, and an error when the iteration aborts the merge (a
malformed change, the nil base-file dereference of an Insert/Insert pair with
differing content, or a `diff3.Merge` failure). -/
def processPair (mt : String → String → String → String → String → Option (String × Bool))
    (oursLabel theirsLabel : String) (st : RepoState) (path : String)
    (pr : ChangePair) : RepoState × Bool × Option MergeError :=
  match pr.ours, pr.theirs with
  | some co, none =>
    match changeAction co with
    | none => (st, false, some .malformedChange)
    | some .insert => (wAdd (fsCreate st path co.toContent) path, false, none)
    | some .modify => (wAdd (fsCreate st path co.toContent) path, false, none)
    | some .delete => (wRemove st path, false, none)
  | none, some ct =>
    match changeAction ct with
    | none => (st, false, some .malformedChange)
    | some .insert => (wAdd (fsCreate st path ct.toContent) path, false, none)
    | some .modify => (wAdd (fsCreate st path ct.toContent) path, false, none)
    | some .delete => (wRemove st path, false, none)
  | some co, some ct =>
    match changeAction co, changeAction ct with
    | some oa, some ta =>
      if (oa = .modify ∧ ta = .modify) ∨ (oa = .insert ∧ ta = .insert) then
        if co.toContent = ct.toContent then (wAdd st path, false, none)
        else if co.fromName = "" then (st, false, some .nilDereference)
        else
          match mt co.toContent co.fromContent ct.toContent oursLabel theirsLabel with
          | none => (st, false, some .mergeTextFailed)
          | some (text, confl) =>
            if confl then (fsCreate st path text, true, none)
            else (wAdd (fsCreate st path text) path, false, none)
      else if oa = .delete ∧ ta = .delete then (wRemove st path, false, none)
      else if (oa = .insert ∨ oa = .modify) ∧ ta = .delete then
        (wAdd (fsCreate st path co.toContent) path, false, none)
      else if (ta = .insert ∨ ta = .modify) ∧ oa = .delete then
        (wAdd (fsCreate st path ct.toContent) path, false, none)
      else (st, false, none)
    | _, _ => (st, false, some .malformedChange)
  | none, none => (st, false, none)

/-- The `for filepath, pair := range changes` loop of `Merge`, iterated in the
plan's insertion order, threading `mergeHasConflict` as the disjunction of the
per-path conflict flags; an erroring iteration aborts the loop and keeps the
mutations done so far. -/
def runPairs (mt : String → String → String → String → String → Option (String × Bool))
    (oursLabel theirsLabel : String) :
    List (String × ChangePair) → RepoState → Bool →
      RepoState × Bool × Option MergeError
  | [], st, confl => (st, confl, none)
  | (path, pr) :: rest, st, confl =>
    match processPair mt oursLabel theirsLabel st path pr with
    | (st1, c, none) => runPairs mt oursLabel theirsLabel rest st1 (confl || c)
    | (st1, _, some e) => (st1, confl, some e)

/-- `plumbing.ReferenceName.Short()` for branch references: strip the
`refs/heads/` segment. -/
def shortName (n : String) : String :=
  if n.take 11 = "refs/heads/" then n.drop 11 else n

/-- `w.Commit`: build a commit whose tree is the current index, store it under
a fresh hash and move the current branch reference to it. -/
def doCommit (st : RepoState) (msg : String) (parents : List Hash)
    (author committer : String) : Hash × RepoState :=
  let h := "merge-" ++ toString st.commits.length
  let c : Commit := ⟨parents, st.index, author, committer, msg⟩
  (h, { st with commits := (h, c) :: st.commits,
                refs := setAssoc st.refs st.headName h })

/-- Two path-to-content maps bind the same content to every path. -/
def sameEntries (a b : List (String × String)) : Bool :=
  (keysA a ++ keysA b).all fun p => lookupA a p == lookupA b p

/-- `w.Status().IsClean()` at the point `Merge` checks it: HEAD still points
at ours, so the status is clean exactly when the working tree and the index
both agree with ours' tree. -/
def isClean (st : RepoState) (tree : List (String × String)) : Bool :=
  sameEntries st.worktree tree && sameEntries st.index tree

/-- Outcome of one `Merge` call: the returned error (`none` on success), the
repository state after whatever mutations happened, and the text written to
the progress sink. -/
structure MergeOut where
  result : Option MergeError
  state : RepoState
  progress : List String
deriving DecidableEq

/-- The strategy constants of the source (`git.MergeStrategy` integers). -/
def FastForwardMerge : Nat := 0

/-- Fast-forward-only strategy constant. -/
def FastForwardOnly : Nat := 1

/-- Ort three-way strategy constant. -/
def OrtMerge : Nat := 2

/-- The merge options: strategy selector plus whether a progress sink is
present (`opts.Progress != nil`). -/
structure MergeOptions where
  strategy : Nat
  progress : Bool
deriving DecidableEq

/-- `Merge(r, ref, opts)` from the source, over repository state `st` and the
target reference `(refName, refHash)`: reject unknown strategies before
touching anything; resolve HEAD and both commits; fast-forward (under every
recognised strategy) when the target's ancestry reaches HEAD, repointing the
branch reference; fail under fast-forward-only otherwise; else run the
three-way path — merge base, two diffs, the per-path plan and loop — then on
conflict record `MERGE_HEAD` and return the conflict error, on a clean status
return without committing, and otherwise commit the index with parents
`[ours, theirs]` and ours' author/committer.  Each progress message is
emitted only when the sink is present, its arguments computed before the
guard as in the source. -/
def Merge (env : GitEnv) (st : RepoState) (refName : String) (refHash : Hash)
    (opts : MergeOptions) : MergeOut :=
  if opts.strategy ≠ OrtMerge ∧ opts.strategy ≠ FastForwardMerge ∧
      opts.strategy ≠ FastForwardOnly then
    ⟨some .unsupportedStrategy, st, []⟩
  else
    match lookupA st.refs st.headName with
    | none => ⟨some .headNotFound, st, []⟩
    | some headHash =>
      match lookupA st.commits refHash with
      | none => ⟨some .missingCommit, st, []⟩
      | some theirCommit =>
        match lookupA st.commits headHash with
        | none => ⟨some .missingCommit, st, []⟩
        | some ourCommit =>
          match isFastForward st.commits headHash refHash st.shallow.head? with
          | none => ⟨some .missingObject, st, []⟩
          | some ff =>
            if ff then
              ⟨none, { st with refs := setAssoc st.refs st.headName refHash },
                if opts.progress then
                  ["Updating " ++ headHash.take 7 ++ "..." ++ refHash.take 7 ++
                    "\nFast-forward\n" ++ env.patchStats headHash refHash]
                else []⟩
            else if opts.strategy = FastForwardOnly then
              ⟨some .fastForwardNotPossible, st, []⟩
            else
              match env.mergeBase headHash refHash with
              | none => ⟨some .mergeBaseFailed, st, []⟩
              | some [] => ⟨some .unrelatedHistories, st, []⟩
              | some (bh :: _) =>
                match lookupA st.commits bh with
                | none => ⟨some .missingCommit, st, []⟩
                | some baseCommit =>
                  match runPairs env.mergeText (shortName st.headName)
                      (shortName refName)
                      (buildPairs (treeDiff baseCommit.tree ourCommit.tree)
                        (treeDiff baseCommit.tree theirCommit.tree))
                      st false with
                  | (st1, _, some e) => ⟨some e, st1, []⟩
                  | (st1, confl, none) =>
                    if confl then
                      ⟨some .mergeConflict,
                        { st1 with refs := setAssoc st1.refs "MERGE_HEAD" refHash },
                        []⟩
                    else if isClean st1 ourCommit.tree then ⟨none, st1, []⟩
                    else
                      let hc := doCommit st1
                        ("Merge " ++ ("refs/heads/" ++ shortName st.headName) ++
                          " with " ++ refName)
                        [headHash, refHash] ourCommit.author ourCommit.committer
                      match lookupA hc.2.commits hc.1 with
                      | none => ⟨some .missingCommit, hc.2, []⟩
                      | some _ =>
                        ⟨none, hc.2,
                          if opts.progress then
                            ["Merge made by the \x27ort\x27 strategy.\n" ++
                              env.patchStats headHash hc.1]
                          else []⟩

/-- Claim C9: for every Merge invocation, the observable merge result — the
returned error and all reference, working-tree and index mutations — is
identical whether the optional progress sink is absent or present, and with
the sink absent nothing is written to it; the sink is only written to, never
consulted for control flow. -/
theorem merge_progress_observational (env : GitEnv) (st : RepoState)
    (refName : String) (refHash : Hash) (strategy : Nat) :
    (Merge env st refName refHash ⟨strategy, true⟩).result
        = (Merge env st refName refHash ⟨strategy, false⟩).result ∧
      (Merge env st refName refHash ⟨strategy, true⟩).state
        = (Merge env st refName refHash ⟨strategy, false⟩).state ∧
      (Merge env st refName refHash ⟨strategy, false⟩).progress = [] := by
  unfold Merge
  repeat' split
  all_goals try simp_all
  all_goals repeat' split
  all_goals simp_all

/-- Claim C10: the preorder ancestry walk begins at the new commit itself, so
`isFastForward(A, A)` with no shallow boundary returns true; consequently
merging a target reference whose hash equals the current head takes the
fast-forward path under every recognised strategy, repointing the head
reference to its own hash and creating no commit object. -/
theorem isFastForward_self_merge (env : GitEnv) (st : RepoState)
    (refName : String) (a : Hash) (c : Commit) (opts : MergeOptions)
    (hhead : lookupA st.refs st.headName = some a)
    (hc : lookupA st.commits a = some c)
    (hshallow : st.shallow = [])
    (hstrat : opts.strategy = FastForwardMerge ∨ opts.strategy = FastForwardOnly ∨
      opts.strategy = OrtMerge) :
    isFastForward st.commits a a none = some true ∧
      (Merge env st refName a opts).result = none ∧
      (Merge env st refName a opts).state
        = { st with refs := setAssoc st.refs st.headName a } := by
  have hff : isFastForward st.commits a a none = some true := isFastForward_self hc
  refine ⟨hff, ?_⟩
  have hcond : ¬ (opts.strategy ≠ OrtMerge ∧ opts.strategy ≠ FastForwardMerge ∧
      opts.strategy ≠ FastForwardOnly) := by
    rcases hstrat with h | h | h <;> simp [h, FastForwardMerge, FastForwardOnly, OrtMerge]
  unfold Merge
  rw [if_neg hcond]
  simp [hhead, hc, hshallow, hff]

/-- Witness repository for the concrete instantiations: two commits, `b` a
child of `a`, with the head reference on a branch. -/
def wEnv : GitEnv :=
  ⟨fun _ _ => some [], fun _ _ _ _ _ => none, fun _ _ => ""⟩

/-- Witness commit `a` (the root). -/
def wCommitA : Commit := ⟨[], [("f", "x")], "alice", "alice", "root"⟩

/-- Witness commit `b` (child of `a`). -/
def wCommitB : Commit := ⟨["a"], [("f", "y")], "bob", "bob", "child"⟩

/-- Witness repository state with HEAD at `a`. -/
def wStateA : RepoState :=
  ⟨[("a", wCommitA), ("b", wCommitB)], [("refs/heads/main", "a")],
    "refs/heads/main", [], [("f", "x")], [("f", "x")]⟩

theorem isFastForward_self_merge_witness :
    isFastForward wStateA.commits "a" "a" none = some true ∧
      (Merge wEnv wStateA "refs/heads/dev" "a" ⟨2, true⟩).result = none ∧
      (Merge wEnv wStateA "refs/heads/dev" "a" ⟨2, true⟩).state
        = { wStateA with refs := setAssoc wStateA.refs wStateA.headName "a" } :=
  isFastForward_self_merge wEnv wStateA "refs/heads/dev" "a" wCommitA ⟨2, true⟩
    (by decide) (by decide) (by decide) (by simp [OrtMerge])

/-- Claim C1: for every pair of commits `a`, `b` where `a` is a strict
ancestor of `b` (with the history below `b` fully present and no shallow
boundary), `isFastForward(a, b)` returns true, and `Merge` invoked with head
at `a` and target `b`, under any of the three strategies, repoints the head
reference to `b` and creates no new commit object (the final state differs
from the initial one only in that reference). -/
theorem merge_fast_forward_of_strict_ancestor (env : GitEnv) (st : RepoState)
    (refName : String) (a b : Hash) (opts : MergeOptions)
    (hhead : lookupA st.refs st.headName = some a)
    (hshallow : st.shallow = [])
    (hclosed : ClosedFrom st.commits b)
    (hanc : StrictAncestor st.commits a b)
    (hstrat : opts.strategy = FastForwardMerge ∨ opts.strategy = FastForwardOnly ∨
      opts.strategy = OrtMerge) :
    isFastForward st.commits a b none = some true ∧
      (Merge env st refName b opts).result = none ∧
      (Merge env st refName b opts).state
        = { st with refs := setAssoc st.refs st.headName b } := by
  have hr : Reaches st.commits b a := Relation.TransGen.to_reflTransGen hanc
  have hff : isFastForward st.commits a b none = some true :=
    isFastForward_complete hclosed hr
  obtain ⟨cb, hcb⟩ := Option.isSome_iff_exists.mp (hclosed b .refl)
  obtain ⟨ca, hca⟩ := Option.isSome_iff_exists.mp (hclosed a hr)
  refine ⟨hff, ?_⟩
  have hcond : ¬ (opts.strategy ≠ OrtMerge ∧ opts.strategy ≠ FastForwardMerge ∧
      opts.strategy ≠ FastForwardOnly) := by
    rcases hstrat with h | h | h <;> simp [h, FastForwardMerge, FastForwardOnly, OrtMerge]
  unfold Merge
  rw [if_neg hcond]
  simp [hhead, hca, hcb, hshallow, hff]

theorem wStateA_lookup_cases {y : Hash} {c : Commit}
    (h : lookupA wStateA.commits y = some c) :
    (y = "a" ∧ c = wCommitA) ∨ (y = "b" ∧ c = wCommitB) := by
  have hm := lookupA_eq_some_mem h
  simp [wStateA] at hm
  rcases hm with ⟨h1, h2⟩ | ⟨h1, h2⟩
  · exact Or.inl ⟨h1, h2⟩
  · exact Or.inr ⟨h1, h2⟩

theorem wStateA_closed : ClosedFrom wStateA.commits "b" := by
  intro x hx
  induction hx with
  | refl => decide
  | tail h1 h2 ih =>
    obtain ⟨c, hly, hpx⟩ := h2
    rcases wStateA_lookup_cases hly with ⟨hy, hc⟩ | ⟨hy, hc⟩
    · subst hc
      simp [wCommitA] at hpx
    · subst hc
      simp [wCommitB] at hpx
      subst hpx
      decide

theorem wStateA_anc : StrictAncestor wStateA.commits "a" "b" :=
  Relation.TransGen.single ⟨wCommitB, by decide, by decide⟩

theorem merge_fast_forward_of_strict_ancestor_witness :
    isFastForward wStateA.commits "a" "b" none = some true ∧
      (Merge wEnv wStateA "refs/heads/dev" "b" ⟨0, false⟩).result = none ∧
      (Merge wEnv wStateA "refs/heads/dev" "b" ⟨0, false⟩).state
        = { wStateA with refs := setAssoc wStateA.refs wStateA.headName "b" } :=
  merge_fast_forward_of_strict_ancestor wEnv wStateA "refs/heads/dev" "a" "b" ⟨0, false⟩
    (by decide) (by decide) wStateA_closed wStateA_anc
    (by simp [FastForwardMerge])

/-- Claim C4: under a three-way strategy (ort, or fast-forward-merge falling
through to the three-way path because fast-forward is impossible), when
`MergeBase` of ours and theirs returns an empty list the merge fails with the
unrelated-histories error, no repository state (references, working tree,
index, commits) is mutated, and the error is the call's result — it is not
coerced into any successful merge outcome. -/
theorem merge_unrelated_histories (env : GitEnv) (st : RepoState)
    (refName : String) (refHash headHash : Hash) (tc oc : Commit)
    (opts : MergeOptions)
    (hstrat : opts.strategy = FastForwardMerge ∨ opts.strategy = OrtMerge)
    (hhead : lookupA st.refs st.headName = some headHash)
    (htheir : lookupA st.commits refHash = some tc)
    (hour : lookupA st.commits headHash = some oc)
    (hff : isFastForward st.commits headHash refHash st.shallow.head? = some false)
    (hmb : env.mergeBase headHash refHash = some []) :
    Merge env st refName refHash opts = ⟨some .unrelatedHistories, st, []⟩ := by
  have hcond : ¬ (opts.strategy ≠ OrtMerge ∧ opts.strategy ≠ FastForwardMerge ∧
      opts.strategy ≠ FastForwardOnly) := by
    rcases hstrat with h | h <;> simp [h, FastForwardMerge, FastForwardOnly, OrtMerge]
  have hffo : ¬ opts.strategy = FastForwardOnly := by
    rcases hstrat with h | h <;>
      simp [h, FastForwardMerge, FastForwardOnly, OrtMerge]
  unfold Merge
  rw [if_neg hcond]
  simp [hhead, htheir, hour, hff, hmb, hffo]

/-- Witness commit unrelated to `wCommitA`. -/
def wCommitU : Commit := ⟨[], [("g", "z")], "uma", "uma", "other root"⟩

/-- Witness repository with two unrelated root commits, HEAD at `a`. -/
def wStateU : RepoState :=
  ⟨[("a", wCommitA), ("u", wCommitU)], [("refs/heads/main", "a")],
    "refs/heads/main", [], [("f", "x")], [("f", "x")]⟩

theorem merge_unrelated_histories_witness :
    Merge wEnv wStateU "refs/heads/other" "u" ⟨2, false⟩
      = ⟨some .unrelatedHistories, wStateU, []⟩ :=
  merge_unrelated_histories wEnv wStateU "refs/heads/other" "u" "a" wCommitU wCommitA
    ⟨2, false⟩ (by simp [OrtMerge]) (by decide) (by decide) (by decide)
    (by simp [wStateU, isFastForward, lookupA, dfsFound, wCommitA, wCommitU])
    rfl



/-- Well-formedness of a flattened tree snapshot as the object store yields
it: unique paths and no empty path. -/
def WfTree (t : List (String × String)) : Prop :=
  (keysA t).Nodup ∧ "" ∉ keysA t

theorem changeKey_from_fst {p v : String} : changeKey ⟨p, v, "", ""⟩ = p := by
  simp [changeKey]

theorem changeKey_to_fst {p v v2 : String} : changeKey ⟨p, v, p, v2⟩ = p := by
  simp [changeKey]

theorem changeKey_ins_fst {p v : String} : changeKey ⟨"", "", p, v⟩ = p := by
  simp [changeKey]
  intro h
  exact h.symm

/-- Case analysis for membership in the first (base-side) half of a diff. -/
theorem treeDiff_fst_cases {t1 t2 : List (String × String)} {c : Change}
    (h : c ∈ t1.filterMap fun e =>
      match lookupA t2 e.fst with
      | none => some (⟨e.fst, e.snd, "", ""⟩ : Change)
      | some c2 =>
        if e.snd = c2 then none else some ⟨e.fst, e.snd, e.fst, c2⟩) :
    (∃ p v, (p, v) ∈ t1 ∧ lookupA t2 p = none ∧ c = ⟨p, v, "", ""⟩) ∨
    (∃ p v v2, (p, v) ∈ t1 ∧ lookupA t2 p = some v2 ∧ v ≠ v2 ∧ c = ⟨p, v, p, v2⟩) := by
  obtain ⟨⟨p, v⟩, hpv, hf⟩ := List.mem_filterMap.mp h
  simp only at hf
  split at hf
  · rename_i hl
    injection hf with hf
    exact Or.inl ⟨p, v, hpv, hl, hf.symm⟩
  · rename_i v2 hl
    split at hf
    · cases hf
    · rename_i hv
      injection hf with hf
      exact Or.inr ⟨p, v, v2, hpv, hl, hv, hf.symm⟩

/-- Case analysis for membership in the second (insert-side) half of a diff. -/
theorem treeDiff_snd_cases {t1 t2 : List (String × String)} {c : Change}
    (h : c ∈ t2.filterMap fun e =>
      match lookupA t1 e.fst with
      | none => some (⟨"", "", e.fst, e.snd⟩ : Change)
      | some _ => none) :
    ∃ p v, (p, v) ∈ t2 ∧ lookupA t1 p = none ∧ c = ⟨"", "", p, v⟩ := by
  obtain ⟨⟨p, v⟩, hpv, hf⟩ := List.mem_filterMap.mp h
  simp only at hf
  split at hf
  · rename_i hl
    injection hf with hf
    exact ⟨p, v, hpv, hl, hf.symm⟩
  · cases hf

theorem treeDiff_shape {t1 t2 : List (String × String)} {c : Change}
    (h1 : WfTree t1) (h2 : WfTree t2) (hc : c ∈ treeDiff t1 t2) :
    changeKey c ≠ "" ∧
    ((changeAction c = some .delete ∧ lookupA t1 (changeKey c) = some c.fromContent ∧
        lookupA t2 (changeKey c) = none) ∨
     (changeAction c = some .modify ∧ lookupA t1 (changeKey c) = some c.fromContent ∧
        lookupA t2 (changeKey c) = some c.toContent) ∨
     (changeAction c = some .insert ∧ lookupA t1 (changeKey c) = none ∧
        lookupA t2 (changeKey c) = some c.toContent)) := by
  rcases List.mem_append.mp hc with h | h
  · rcases treeDiff_fst_cases h with ⟨p, v, hpv, hl, hce⟩ | ⟨p, v, v2, hpv, hl, hv, hce⟩
    · subst hce
      have hp : p ≠ "" := by
        intro he
        exact h1.2 (he ▸ List.mem_map.mpr ⟨(p, v), hpv, rfl⟩)
      have hl1 : lookupA t1 p = some v := lookupA_of_mem_nodup hpv h1.1
      rw [changeKey_from_fst]
      exact ⟨hp, Or.inl (by simp [changeAction, hp, hl1, hl])⟩
    · subst hce
      have hp : p ≠ "" := by
        intro he
        exact h1.2 (he ▸ List.mem_map.mpr ⟨(p, v), hpv, rfl⟩)
      have hl1 : lookupA t1 p = some v := lookupA_of_mem_nodup hpv h1.1
      rw [changeKey_to_fst]
      exact ⟨hp, Or.inr (Or.inl (by simp [changeAction, hp, hl1, hl]))⟩
  · obtain ⟨p, v, hpv, hl, hce⟩ := treeDiff_snd_cases h
    subst hce
    have hp : p ≠ "" := by
      intro he
      exact h2.2 (he ▸ List.mem_map.mpr ⟨(p, v), hpv, rfl⟩)
    have hl2 : lookupA t2 p = some v := lookupA_of_mem_nodup hpv h2.1
    rw [changeKey_ins_fst]
    exact ⟨hp, Or.inr (Or.inr (by simp [changeAction, hp, hl2, hl]))⟩

theorem map_filterMap_sublist {α β γ : Type} (l : List α) (f : α → Option β)
    (g : β → γ) (k : α → γ) (h : ∀ a b, f a = some b → g b = k a) :
    List.Sublist ((l.filterMap f).map g) (l.map k) := by
  induction l with
  | nil => simp
  | cons a t ih =>
    cases hf : f a with
    | none =>
      rw [List.filterMap_cons_none hf, List.map_cons]
      exact ih.cons _
    | some b =>
      rw [List.filterMap_cons_some hf, List.map_cons, List.map_cons, h a b hf]
      exact ih.cons₂ _

theorem treeDiff_fst_keys {t1 t2 : List (String × String)} :
    List.Sublist (((t1.filterMap fun e =>
        match lookupA t2 e.fst with
        | none => some (⟨e.fst, e.snd, "", ""⟩ : Change)
        | some c2 =>
          if e.snd = c2 then none else some ⟨e.fst, e.snd, e.fst, c2⟩)).map changeKey)
      (keysA t1) := by
  refine map_filterMap_sublist t1 _ changeKey Prod.fst ?_
  intro a b hf
  simp only at hf
  split at hf
  · injection hf with hf
    subst hf
    exact changeKey_from_fst
  · split at hf
    · cases hf
    · injection hf with hf
      subst hf
      exact changeKey_to_fst

theorem treeDiff_snd_keys {t1 t2 : List (String × String)} :
    List.Sublist (((t2.filterMap fun e =>
        match lookupA t1 e.fst with
        | none => some (⟨"", "", e.fst, e.snd⟩ : Change)
        | some _ => none)).map changeKey)
      (keysA t2) := by
  refine map_filterMap_sublist t2 _ changeKey Prod.fst ?_
  intro a b hf
  simp only at hf
  split at hf
  · injection hf with hf
    subst hf
    exact changeKey_ins_fst
  · cases hf

theorem treeDiff_keys_nodup {t1 t2 : List (String × String)}
    (h1 : WfTree t1) (h2 : WfTree t2) :
    ((treeDiff t1 t2).map changeKey).Nodup := by
  unfold treeDiff
  rw [List.map_append]
  refine List.Nodup.append (treeDiff_fst_keys.nodup h1.1)
    (treeDiff_snd_keys.nodup h2.1) ?_
  intro q hq1 hq2
  obtain ⟨c1, hc1m, hc1k⟩ := List.mem_map.mp hq1
  obtain ⟨c2, hc2m, hc2k⟩ := List.mem_map.mp hq2
  obtain ⟨p2, v2, hpv2, hl2, hce2⟩ := treeDiff_snd_cases hc2m
  subst hce2
  rw [changeKey_ins_fst] at hc2k
  subst hc2k
  rcases treeDiff_fst_cases hc1m with ⟨p1, v1, hpv1, hl1, hce1⟩ | ⟨p1, v1, v1b, hpv1, hl1, hv1, hce1⟩
  · subst hce1
    rw [changeKey_from_fst] at hc1k
    subst hc1k
    have hme : (lookupA t1 p1).isSome :=
      lookupA_isSome_of_mem_keys (List.mem_map.mpr ⟨(p1, v1), hpv1, rfl⟩)
    rw [hl2] at hme
    cases hme
  · subst hce1
    rw [changeKey_to_fst] at hc1k
    subst hc1k
    have hme : (lookupA t1 p1).isSome :=
      lookupA_isSome_of_mem_keys (List.mem_map.mpr ⟨(p1, v1), hpv1, rfl⟩)
    rw [hl2] at hme
    cases hme

theorem mem_setAssoc_cases {α : Type} {m : List (String × α)} {k p : String}
    {v pr : α} (h : (p, pr) ∈ setAssoc m k v) : (p, pr) ∈ m ∨ (p = k ∧ pr = v) := by
  induction m with
  | nil =>
    simp [setAssoc] at h
    exact Or.inr h
  | cons e rest ih =>
    obtain ⟨k', w⟩ := e
    by_cases hk : k' = k
    · subst hk
      rw [setAssoc, if_pos rfl] at h
      rcases List.mem_cons.mp h with h' | h'
      · have h1 : p = k' := congrArg Prod.fst h'
        have h2 : pr = v := congrArg Prod.snd h'
        exact Or.inr ⟨h1, h2⟩
      · exact Or.inl (List.mem_cons_of_mem _ h')
    · rw [setAssoc, if_neg hk] at h
      rcases List.mem_cons.mp h with h' | h'
      · exact Or.inl (List.mem_cons.mpr (Or.inl h'))
      · rcases ih h' with h'' | h''
        · exact Or.inl (List.mem_cons_of_mem _ h'')
        · exact Or.inr h''

theorem mem_keys_of_setAssoc {α : Type} {m : List (String × α)} {k : String} {v : α}
    {q : String} (h : q ∈ keysA m) : q ∈ keysA (setAssoc m k v) := by
  rcases lookupA_eq_some_mem (Option.isSome_iff_exists.mp
    (lookupA_isSome_of_mem_keys h)).choose_spec with hm
  have hl := lookupA_setAssoc m k v q
  by_cases hk : k = q
  · subst hk
    exact lookupA_mem_keys (by rw [hl, if_pos rfl])
  · rw [if_neg hk] at hl
    have : (lookupA (setAssoc m k v) q).isSome := by
      rw [hl]
      exact lookupA_isSome_of_mem_keys h
    obtain ⟨w, hw⟩ := Option.isSome_iff_exists.mp this
    exact lookupA_mem_keys hw

theorem key_mem_setAssoc_self {α : Type} (m : List (String × α)) (k : String) (v : α) :
    k ∈ keysA (setAssoc m k v) :=
  lookupA_mem_keys (by rw [lookupA_setAssoc, if_pos rfl])

/-- Slot discipline of the merge plan under construction: every pair holds
only changes of the respective diff, filed under their own key. -/
def PlanWf (l1 l2 : List Change) (m : List (String × ChangePair)) : Prop :=
  ∀ p pr, (p, pr) ∈ m →
    (pr.ours.isSome ∨ pr.theirs.isSome) ∧
    (∀ c, pr.ours = some c → c ∈ l1 ∧ changeKey c = p) ∧
    (∀ c, pr.theirs = some c → c ∈ l2 ∧ changeKey c = p)

theorem planWf_addOurs {l1 l2 : List Change} {m : List (String × ChangePair)}
    (hm : PlanWf l1 l2 m) {c : Change} (hc : c ∈ l1) :
    PlanWf l1 l2 (addOurs m c) := by
  intro p pr h
  rcases mem_setAssoc_cases h with h' | ⟨hp, hpr⟩
  · exact hm p pr h'
  · subst hp
    subst hpr
    refine ⟨Or.inl (by simp), fun c' hc' => ?_, fun c' hc' => ?_⟩
    · simp at hc'
      subst hc'
      exact ⟨hc, rfl⟩
    · simp at hc'
      cases hg : lookupA m (changeKey c) with
      | none => simp [hg, emptyPair] at hc'
      | some pr0 =>
        rw [hg] at hc'
        simp at hc'
        have := (hm (changeKey c) pr0 (lookupA_eq_some_mem hg)).2.2 c' hc'
        exact this

theorem planWf_addTheirs {l1 l2 : List Change} {m : List (String × ChangePair)}
    (hm : PlanWf l1 l2 m) {c : Change} (hc : c ∈ l2) :
    PlanWf l1 l2 (addTheirs m c) := by
  intro p pr h
  rcases mem_setAssoc_cases h with h' | ⟨hp, hpr⟩
  · exact hm p pr h'
  · subst hp
    subst hpr
    refine ⟨Or.inr (by simp), fun c' hc' => ?_, fun c' hc' => ?_⟩
    · simp at hc'
      cases hg : lookupA m (changeKey c) with
      | none => simp [hg, emptyPair] at hc'
      | some pr0 =>
        rw [hg] at hc'
        simp at hc'
        exact (hm (changeKey c) pr0 (lookupA_eq_some_mem hg)).2.1 c' hc'
    · simp at hc'
      subst hc'
      exact ⟨hc, rfl⟩

theorem planWf_foldl_addOurs {l1 l2 : List Change} :
    ∀ (l : List Change) (m : List (String × ChangePair)), PlanWf l1 l2 m →
      (∀ c ∈ l, c ∈ l1) → PlanWf l1 l2 (l.foldl addOurs m)
  | [], m, hm, _ => hm
  | c :: rest, m, hm, hl =>
    planWf_foldl_addOurs rest (addOurs m c)
      (planWf_addOurs hm (hl c (List.mem_cons_self _ _)))
      (fun c' hc' => hl c' (List.mem_cons_of_mem _ hc'))

theorem planWf_foldl_addTheirs {l1 l2 : List Change} :
    ∀ (l : List Change) (m : List (String × ChangePair)), PlanWf l1 l2 m →
      (∀ c ∈ l, c ∈ l2) → PlanWf l1 l2 (l.foldl addTheirs m)
  | [], m, hm, _ => hm
  | c :: rest, m, hm, hl =>
    planWf_foldl_addTheirs rest (addTheirs m c)
      (planWf_addTheirs hm (hl c (List.mem_cons_self _ _)))
      (fun c' hc' => hl c' (List.mem_cons_of_mem _ hc'))

theorem buildPairs_mem_shape {l1 l2 : List Change} {p : String} {pr : ChangePair}
    (h : (p, pr) ∈ buildPairs l1 l2) :
    (pr.ours.isSome ∨ pr.theirs.isSome) ∧
    (∀ c, pr.ours = some c → c ∈ l1 ∧ changeKey c = p) ∧
    (∀ c, pr.theirs = some c → c ∈ l2 ∧ changeKey c = p) := by
  have h1 : PlanWf l1 l2 (l1.foldl addOurs []) :=
    planWf_foldl_addOurs l1 [] (fun p pr h => by cases h) (fun c hc => hc)
  have h2 : PlanWf l1 l2 (buildPairs l1 l2) :=
    planWf_foldl_addTheirs l2 (l1.foldl addOurs []) h1 (fun c hc => hc)
  exact h2 p pr h

theorem foldl_addOurs_keys_nodup :
    ∀ (l : List Change) (m : List (String × ChangePair)), (keysA m).Nodup →
      (keysA (l.foldl addOurs m)).Nodup
  | [], _, hm => hm
  | c :: rest, m, hm =>
    foldl_addOurs_keys_nodup rest (addOurs m c) (setAssoc_keys_nodup _ _ hm)

theorem foldl_addTheirs_keys_nodup :
    ∀ (l : List Change) (m : List (String × ChangePair)), (keysA m).Nodup →
      (keysA (l.foldl addTheirs m)).Nodup
  | [], _, hm => hm
  | c :: rest, m, hm =>
    foldl_addTheirs_keys_nodup rest (addTheirs m c) (setAssoc_keys_nodup _ _ hm)

theorem buildPairs_keys_nodup (l1 l2 : List Change) :
    (keysA (buildPairs l1 l2)).Nodup :=
  foldl_addTheirs_keys_nodup l2 (l1.foldl addOurs [])
    (foldl_addOurs_keys_nodup l1 [] (by simp [keysA]))

theorem keys_foldl_addOurs_mono :
    ∀ (l : List Change) (m : List (String × ChangePair)) (q : String),
      q ∈ keysA m → q ∈ keysA (l.foldl addOurs m)
  | [], _, _, hq => hq
  | c :: rest, m, q, hq =>
    keys_foldl_addOurs_mono rest (addOurs m c) q (mem_keys_of_setAssoc hq)

theorem keys_foldl_addTheirs_mono :
    ∀ (l : List Change) (m : List (String × ChangePair)) (q : String),
      q ∈ keysA m → q ∈ keysA (l.foldl addTheirs m)
  | [], _, _, hq => hq
  | c :: rest, m, q, hq =>
    keys_foldl_addTheirs_mono rest (addTheirs m c) q (mem_keys_of_setAssoc hq)

theorem changeKey_mem_foldl_addOurs {c : Change} :
    ∀ (l : List Change) (m : List (String × ChangePair)), c ∈ l →
      changeKey c ∈ keysA (l.foldl addOurs m)
  | [], _, hc => by cases hc
  | c' :: rest, m, hc => by
    rcases List.mem_cons.mp hc with h | h
    · subst h
      exact keys_foldl_addOurs_mono rest (addOurs m c) _
        (key_mem_setAssoc_self _ _ _)
    · exact changeKey_mem_foldl_addOurs rest (addOurs m c') h

theorem changeKey_mem_foldl_addTheirs {c : Change} :
    ∀ (l : List Change) (m : List (String × ChangePair)), c ∈ l →
      changeKey c ∈ keysA (l.foldl addTheirs m)
  | [], _, hc => by cases hc
  | c' :: rest, m, hc => by
    rcases List.mem_cons.mp hc with h | h
    · subst h
      exact keys_foldl_addTheirs_mono rest (addTheirs m c) _
        (key_mem_setAssoc_self _ _ _)
    · exact changeKey_mem_foldl_addTheirs rest (addTheirs m c') h

/-- The `ours` slot of the pair filed under `p` is populated. -/
def OursSome (m : List (String × ChangePair)) (p : String) : Prop :=
  ∃ pr, lookupA m p = some pr ∧ pr.ours.isSome

/-- The `theirs` slot of the pair filed under `p` is populated. -/
def TheirsSome (m : List (String × ChangePair)) (p : String) : Prop :=
  ∃ pr, lookupA m p = some pr ∧ pr.theirs.isSome

theorem oursSome_addOurs (m : List (String × ChangePair)) (c : Change) :
    OursSome (addOurs m c) (changeKey c) := by
  refine ⟨{ (lookupA m (changeKey c)).getD emptyPair with ours := some c }, ?_, ?_⟩
  · simp [addOurs, lookupA_setAssoc]
  · simp

theorem oursSome_addOurs_mono {m : List (String × ChangePair)} {p : String}
    (h : OursSome m p) (c : Change) : OursSome (addOurs m c) p := by
  by_cases hk : changeKey c = p
  · subst hk
    exact oursSome_addOurs m c
  · obtain ⟨pr, hl, ho⟩ := h
    exact ⟨pr, by simp [addOurs, lookupA_setAssoc, hk, hl], ho⟩

theorem oursSome_addTheirs_mono {m : List (String × ChangePair)} {p : String}
    (h : OursSome m p) (c : Change) : OursSome (addTheirs m c) p := by
  obtain ⟨pr, hl, ho⟩ := h
  by_cases hk : changeKey c = p
  · subst hk
    refine ⟨{ (lookupA m (changeKey c)).getD emptyPair with theirs := some c },
      by simp [addTheirs, lookupA_setAssoc], ?_⟩
    rw [hl]
    simpa using ho
  · exact ⟨pr, by simp [addTheirs, lookupA_setAssoc, hk, hl], ho⟩

theorem theirsSome_addTheirs (m : List (String × ChangePair)) (c : Change) :
    TheirsSome (addTheirs m c) (changeKey c) := by
  refine ⟨{ (lookupA m (changeKey c)).getD emptyPair with theirs := some c }, ?_, ?_⟩
  · simp [addTheirs, lookupA_setAssoc]
  · simp

theorem theirsSome_addTheirs_mono {m : List (String × ChangePair)} {p : String}
    (h : TheirsSome m p) (c : Change) : TheirsSome (addTheirs m c) p := by
  by_cases hk : changeKey c = p
  · subst hk
    exact theirsSome_addTheirs m c
  · obtain ⟨pr, hl, ht⟩ := h
    exact ⟨pr, by simp [addTheirs, lookupA_setAssoc, hk, hl], ht⟩

theorem oursSome_foldl_addOurs_mono {p : String} :
    ∀ (l : List Change) (m : List (String × ChangePair)), OursSome m p →
      OursSome (l.foldl addOurs m) p
  | [], _, h => h
  | c :: rest, m, h =>
    oursSome_foldl_addOurs_mono rest (addOurs m c) (oursSome_addOurs_mono h c)

theorem oursSome_foldl_addOurs {c : Change} :
    ∀ (l : List Change) (m : List (String × ChangePair)), c ∈ l →
      OursSome (l.foldl addOurs m) (changeKey c)
  | [], _, hc => by cases hc
  | c' :: rest, m, hc => by
    rcases List.mem_cons.mp hc with h | h
    · subst h
      exact oursSome_foldl_addOurs_mono rest (addOurs m c) (oursSome_addOurs m c)
    · exact oursSome_foldl_addOurs rest (addOurs m c') h

theorem oursSome_foldl_addTheirs {p : String} :
    ∀ (l : List Change) (m : List (String × ChangePair)), OursSome m p →
      OursSome (l.foldl addTheirs m) p
  | [], _, h => h
  | c :: rest, m, h =>
    oursSome_foldl_addTheirs rest (addTheirs m c) (oursSome_addTheirs_mono h c)

theorem theirsSome_foldl_addTheirs_mono {p : String} :
    ∀ (l : List Change) (m : List (String × ChangePair)), TheirsSome m p →
      TheirsSome (l.foldl addTheirs m) p
  | [], _, h => h
  | c :: rest, m, h =>
    theirsSome_foldl_addTheirs_mono rest (addTheirs m c) (theirsSome_addTheirs_mono h c)

theorem theirsSome_foldl_addTheirs {c : Change} :
    ∀ (l : List Change) (m : List (String × ChangePair)), c ∈ l →
      TheirsSome (l.foldl addTheirs m) (changeKey c)
  | [], _, hc => by cases hc
  | c' :: rest, m, hc => by
    rcases List.mem_cons.mp hc with h | h
    · subst h
      exact theirsSome_foldl_addTheirs_mono rest (addTheirs m c) (theirsSome_addTheirs m c)
    · exact theirsSome_foldl_addTheirs rest (addTheirs m c') h

theorem buildPairs_both_slots {l1 l2 : List Change} {c1 c2 : Change} {p : String}
    (h1 : c1 ∈ l1) (hk1 : changeKey c1 = p) (h2 : c2 ∈ l2) (hk2 : changeKey c2 = p) :
    ∃ pr, lookupA (buildPairs l1 l2) p = some pr ∧
      pr.ours.isSome ∧ pr.theirs.isSome := by
  have ho : OursSome (buildPairs l1 l2) p :=
    oursSome_foldl_addTheirs l2 _ (hk1 ▸ oursSome_foldl_addOurs l1 [] h1)
  have ht : TheirsSome (buildPairs l1 l2) p :=
    hk2 ▸ theirsSome_foldl_addTheirs l2 _ h2
  obtain ⟨pr, hl, hos⟩ := ho
  obtain ⟨pr', hl', hts⟩ := ht
  rw [hl] at hl'
  injection hl' with he
  subst he
  exact ⟨pr, hl, hos, hts⟩

theorem buildPairs_key_of_changed {l1 l2 : List Change} {p : String}
    (h : (∃ c ∈ l1, changeKey c = p) ∨ (∃ c ∈ l2, changeKey c = p)) :
    p ∈ keysA (buildPairs l1 l2) := by
  rcases h with ⟨c, hc, hk⟩ | ⟨c, hc, hk⟩
  · subst hk
    exact keys_foldl_addTheirs_mono l2 _ _ (changeKey_mem_foldl_addOurs l1 [] hc)
  · subst hk
    exact changeKey_mem_foldl_addTheirs l2 _ hc

/-- Claim C7: the merge plan built from the base-to-ours and base-to-theirs
diffs keys every change by its post-change path, falling back to the
pre-change path when the change is a deletion (that is `changeKey`); it
contains no entry with an empty key; its keys are unique, and a path has an
entry exactly when it changed on either side — so every changed path appears
exactly once — and a path changed on both sides yields one pair with both
slots populated. -/
theorem buildPairs_plan_correct {base ours theirs : List (String × String)}
    (hb : WfTree base) (ho : WfTree ours) (ht : WfTree theirs) :
    (∀ p pr, (p, pr) ∈ buildPairs (treeDiff base ours) (treeDiff base theirs) →
        p ≠ "" ∧
        (∀ c, pr.ours = some c → c ∈ treeDiff base ours ∧ changeKey c = p) ∧
        (∀ c, pr.theirs = some c → c ∈ treeDiff base theirs ∧ changeKey c = p) ∧
        (pr.ours.isSome ∨ pr.theirs.isSome)) ∧
      (keysA (buildPairs (treeDiff base ours) (treeDiff base theirs))).Nodup ∧
      (∀ p, p ∈ keysA (buildPairs (treeDiff base ours) (treeDiff base theirs)) ↔
        ((∃ c ∈ treeDiff base ours, changeKey c = p) ∨
          (∃ c ∈ treeDiff base theirs, changeKey c = p))) ∧
      (∀ p, (∃ c ∈ treeDiff base ours, changeKey c = p) →
        (∃ c ∈ treeDiff base theirs, changeKey c = p) →
        ∃ pr, (p, pr) ∈ buildPairs (treeDiff base ours) (treeDiff base theirs) ∧
          pr.ours.isSome ∧ pr.theirs.isSome) := by
  refine ⟨?_, buildPairs_keys_nodup _ _, ?_, ?_⟩
  · intro p pr hmem
    obtain ⟨hsome, hou, hth⟩ := buildPairs_mem_shape hmem
    refine ⟨?_, hou, hth, hsome⟩
    rcases hsome with hs | hs
    · obtain ⟨c, hc⟩ := Option.isSome_iff_exists.mp hs
      obtain ⟨hcm, hck⟩ := hou c hc
      exact hck ▸ (treeDiff_shape hb ho hcm).1
    · obtain ⟨c, hc⟩ := Option.isSome_iff_exists.mp hs
      obtain ⟨hcm, hck⟩ := hth c hc
      exact hck ▸ (treeDiff_shape hb ht hcm).1
  · intro p
    constructor
    · intro hp
      obtain ⟨pr, hpr⟩ := Option.isSome_iff_exists.mp (lookupA_isSome_of_mem_keys hp)
      obtain ⟨hsome, hou, hth⟩ := buildPairs_mem_shape (lookupA_eq_some_mem hpr)
      rcases hsome with hs | hs
      · obtain ⟨c, hc⟩ := Option.isSome_iff_exists.mp hs
        obtain ⟨hcm, hck⟩ := hou c hc
        exact Or.inl ⟨c, hcm, hck⟩
      · obtain ⟨c, hc⟩ := Option.isSome_iff_exists.mp hs
        obtain ⟨hcm, hck⟩ := hth c hc
        exact Or.inr ⟨c, hcm, hck⟩
    · exact buildPairs_key_of_changed
  · intro p h1 h2
    obtain ⟨c1, hc1, hk1⟩ := h1
    obtain ⟨c2, hc2, hk2⟩ := h2
    obtain ⟨pr, hl, hos, hts⟩ := buildPairs_both_slots hc1 hk1 hc2 hk2
    exact ⟨pr, lookupA_eq_some_mem hl, hos, hts⟩

/-- Witness trees: base, ours (modifies `f`), theirs (modifies `f`, adds
`h`, deletes `g`). -/
def wTreeBase : List (String × String) := [("f", "x"), ("g", "y")]

/-- Witness tree for ours. -/
def wTreeOurs : List (String × String) := [("f", "o"), ("g", "y")]

/-- Witness tree for theirs. -/
def wTreeTheirs : List (String × String) := [("f", "t"), ("h", "z")]

theorem buildPairs_plan_correct_witness :
    (∀ p pr, (p, pr) ∈ buildPairs (treeDiff wTreeBase wTreeOurs)
          (treeDiff wTreeBase wTreeTheirs) →
        p ≠ "" ∧
        (∀ c, pr.ours = some c → c ∈ treeDiff wTreeBase wTreeOurs ∧ changeKey c = p) ∧
        (∀ c, pr.theirs = some c →
          c ∈ treeDiff wTreeBase wTreeTheirs ∧ changeKey c = p) ∧
        (pr.ours.isSome ∨ pr.theirs.isSome)) ∧
      (keysA (buildPairs (treeDiff wTreeBase wTreeOurs)
        (treeDiff wTreeBase wTreeTheirs))).Nodup ∧
      (∀ p, p ∈ keysA (buildPairs (treeDiff wTreeBase wTreeOurs)
          (treeDiff wTreeBase wTreeTheirs)) ↔
        ((∃ c ∈ treeDiff wTreeBase wTreeOurs, changeKey c = p) ∨
          (∃ c ∈ treeDiff wTreeBase wTreeTheirs, changeKey c = p))) ∧
      (∀ p, (∃ c ∈ treeDiff wTreeBase wTreeOurs, changeKey c = p) →
        (∃ c ∈ treeDiff wTreeBase wTreeTheirs, changeKey c = p) →
        ∃ pr, (p, pr) ∈ buildPairs (treeDiff wTreeBase wTreeOurs)
            (treeDiff wTreeBase wTreeTheirs) ∧
          pr.ours.isSome ∧ pr.theirs.isSome) :=
  buildPairs_plan_correct (by constructor <;> decide) (by constructor <;> decide)
    (by constructor <;> decide)

/-- The six cases of the per-path resolution table, in the order the source
checks them. -/
inductive MergeCase where
  | oursOnly (a : MAction)
  | theirsOnly (a : MAction)
  | bothChanged
  | bothDeleted
  | oursWins
  | theirsWins
deriving DecidableEq

/-- Which branch of the per-path case analysis of `Merge` handles a pair:
`none` when no branch applies (an unpopulated pair, a malformed change, or an
Insert-vs-Modify crossing, which the switch does not cover). -/
def caseOf (pr : ChangePair) : Option MergeCase :=
  match pr.ours, pr.theirs with
  | some c, none => (changeAction c).map .oursOnly
  | none, some c => (changeAction c).map .theirsOnly
  | some co, some ct =>
    match changeAction co, changeAction ct with
    | some oa, some ta =>
      if (oa = .modify ∧ ta = .modify) ∨ (oa = .insert ∧ ta = .insert) then
        some .bothChanged
      else if oa = .delete ∧ ta = .delete then some .bothDeleted
      else if (oa = .insert ∨ oa = .modify) ∧ ta = .delete then some .oursWins
      else if (ta = .insert ∨ ta = .modify) ∧ oa = .delete then some .theirsWins
      else none
    | _, _ => none
  | none, none => none

theorem plan_caseOf_isSome {base ours theirs : List (String × String)}
    (hb : WfTree base) (ho : WfTree ours) (ht : WfTree theirs)
    {p : String} {pr : ChangePair}
    (hmem : (p, pr) ∈ buildPairs (treeDiff base ours) (treeDiff base theirs)) :
    (caseOf pr).isSome := by
  obtain ⟨hsome, hou, hth⟩ := buildPairs_mem_shape hmem
  cases hpo : pr.ours with
  | none =>
    cases hpt : pr.theirs with
    | none =>
      rw [hpo, hpt] at hsome
      simp at hsome
    | some ct =>
      obtain ⟨hcm, hck⟩ := hth ct hpt
      rcases (treeDiff_shape hb ht hcm).2 with ⟨ha, _, _⟩ | ⟨ha, _, _⟩ | ⟨ha, _, _⟩ <;>
        simp [caseOf, hpo, hpt, ha]
  | some co =>
    cases hpt : pr.theirs with
    | none =>
      obtain ⟨hcm, hck⟩ := hou co hpo
      rcases (treeDiff_shape hb ho hcm).2 with ⟨ha, _, _⟩ | ⟨ha, _, _⟩ | ⟨ha, _, _⟩ <;>
        simp [caseOf, hpo, hpt, ha]
    | some ct =>
      obtain ⟨hcm1, hck1⟩ := hou co hpo
      obtain ⟨hcm2, hck2⟩ := hth ct hpt
      have hs1 := (treeDiff_shape hb ho hcm1).2
      have hs2 := (treeDiff_shape hb ht hcm2).2
      rw [hck1] at hs1
      rw [hck2] at hs2
      rcases hs1 with ⟨ha1, hl1, _⟩ | ⟨ha1, hl1, _⟩ | ⟨ha1, hl1, _⟩ <;>
        rcases hs2 with ⟨ha2, hl2, _⟩ | ⟨ha2, hl2, _⟩ | ⟨ha2, hl2, _⟩ <;>
        first
          | (simp [caseOf, hpo, hpt, ha1, ha2]; done)
          | (rw [hl1] at hl2; cases hl2)

/-- Claim C8: for every pair of the plan built from the two diffs against the
same base tree, one of the six cases of the resolution table applies (and at
most one, `caseOf` being a function evaluating the conditions in the
source's order); in particular, for a both-sided pair the Insert-vs-Modify
crossings — exactly the inputs on which `caseOf` is `none` — never occur, so
no changed path falls through the case analysis unhandled. -/
theorem plan_case_exhaustive {base ours theirs : List (String × String)}
    (hb : WfTree base) (ho : WfTree ours) (ht : WfTree theirs)
    {p : String} {pr : ChangePair}
    (hmem : (p, pr) ∈ buildPairs (treeDiff base ours) (treeDiff base theirs)) :
    (caseOf pr).isSome :=
  plan_caseOf_isSome hb ho ht hmem

theorem plan_case_exhaustive_witness : (caseOf ⟨some ⟨"f", "x", "f", "o"⟩,
      some ⟨"f", "x", "f", "t"⟩⟩).isSome :=
  @plan_case_exhaustive wTreeBase wTreeOurs wTreeTheirs
    (by constructor <;> decide) (by constructor <;> decide)
    (by constructor <;> decide) "f" ⟨some ⟨"f", "x", "f", "o"⟩, some ⟨"f", "x", "f", "t"⟩⟩
    (by decide)

theorem processPair_fields
    (mt : String → String → String → String → String → Option (String × Bool))
    (lab1 lab2 : String) (st : RepoState) (path : String) (pr : ChangePair) :
    (processPair mt lab1 lab2 st path pr).1.commits = st.commits ∧
    (processPair mt lab1 lab2 st path pr).1.refs = st.refs ∧
    (processPair mt lab1 lab2 st path pr).1.headName = st.headName ∧
    (processPair mt lab1 lab2 st path pr).1.shallow = st.shallow := by
  unfold processPair wAdd wRemove fsCreate
  repeat' split
  all_goals simp

theorem processPair_frame
    (mt : String → String → String → String → String → Option (String × Bool))
    (lab1 lab2 : String) (st : RepoState) (path : String) (pr : ChangePair)
    {q : String} (hq : q ≠ path) :
    lookupA (processPair mt lab1 lab2 st path pr).1.worktree q
        = lookupA st.worktree q ∧
      lookupA (processPair mt lab1 lab2 st path pr).1.index q
        = lookupA st.index q := by
  have hpq : ¬ path = q := fun h => hq h.symm
  unfold processPair wAdd wRemove fsCreate
  repeat' split
  all_goals simp [lookupA_setAssoc, lookupA_eraseAssoc, hpq]

theorem runPairs_fields
    (mt : String → String → String → String → String → Option (String × Bool))
    (lab1 lab2 : String) :
    ∀ (pairs : List (String × ChangePair)) (st : RepoState) (confl : Bool),
      (runPairs mt lab1 lab2 pairs st confl).1.commits = st.commits ∧
      (runPairs mt lab1 lab2 pairs st confl).1.refs = st.refs ∧
      (runPairs mt lab1 lab2 pairs st confl).1.headName = st.headName ∧
      (runPairs mt lab1 lab2 pairs st confl).1.shallow = st.shallow := by
  intro pairs
  induction pairs with
  | nil => intro st confl; exact ⟨rfl, rfl, rfl, rfl⟩
  | cons e rest ih =>
    obtain ⟨path, pr⟩ := e
    intro st confl
    have hp := processPair_fields mt lab1 lab2 st path pr
    rw [runPairs]
    rcases hres : processPair mt lab1 lab2 st path pr with ⟨st1, c, er⟩
    rw [hres] at hp
    simp only at hp
    cases er with
    | none =>
      simp only
      have hr := ih st1 (confl || c)
      exact ⟨hr.1.trans hp.1, hr.2.1.trans hp.2.1, hr.2.2.1.trans hp.2.2.1,
        hr.2.2.2.trans hp.2.2.2⟩
    | some e' =>
      simp only
      exact hp

theorem runPairs_frame
    (mt : String → String → String → String → String → Option (String × Bool))
    (lab1 lab2 : String) :
    ∀ (pairs : List (String × ChangePair)) (st : RepoState) (confl : Bool)
      {q : String}, q ∉ keysA pairs →
      lookupA (runPairs mt lab1 lab2 pairs st confl).1.worktree q
          = lookupA st.worktree q ∧
        lookupA (runPairs mt lab1 lab2 pairs st confl).1.index q
          = lookupA st.index q := by
  intro pairs
  induction pairs with
  | nil => intro st confl q _; exact ⟨rfl, rfl⟩
  | cons e rest ih =>
    obtain ⟨path, pr⟩ := e
    intro st confl q hq
    have hqp : q ≠ path := by
      intro h
      exact hq (h ▸ List.mem_cons_self _ _)
    have hqr : q ∉ keysA rest := by
      intro h
      exact hq (List.mem_cons_of_mem _ h)
    have hp := processPair_frame mt lab1 lab2 st path pr hqp
    rw [runPairs]
    rcases hres : processPair mt lab1 lab2 st path pr with ⟨st1, c, er⟩
    rw [hres] at hp
    simp only at hp
    cases er with
    | none =>
      simp only
      have hr := ih st1 (confl || c) hqr
      exact ⟨hr.1.trans hp.1, hr.2.trans hp.2⟩
    | some e' =>
      simp only
      exact hp

theorem runPairs_mem
    (mt : String → String → String → String → String → Option (String × Bool))
    (lab1 lab2 : String) :
    ∀ (pairs : List (String × ChangePair)) (st st1 : RepoState) (confl c1 : Bool),
      (keysA pairs).Nodup →
      runPairs mt lab1 lab2 pairs st confl = (st1, c1, none) →
      ∀ p pr, (p, pr) ∈ pairs →
        ∃ stA stB c, processPair mt lab1 lab2 stA p pr = (stB, c, none) ∧
          lookupA stA.worktree p = lookupA st.worktree p ∧
          lookupA stA.index p = lookupA st.index p ∧
          lookupA st1.worktree p = lookupA stB.worktree p ∧
          lookupA st1.index p = lookupA stB.index p := by
  intro pairs
  induction pairs with
  | nil =>
    intro st st1 confl c1 _ _ p pr hmem
    cases hmem
  | cons e rest ih =>
    obtain ⟨path, pr0⟩ := e
    intro st st1 confl c1 hnd hrun p pr hmem
    have hnd1 : path ∉ keysA rest := (List.nodup_cons.mp hnd).1
    have hnd2 : (keysA rest).Nodup := (List.nodup_cons.mp hnd).2
    rw [runPairs] at hrun
    rcases hres : processPair mt lab1 lab2 st path pr0 with ⟨stB, c, er⟩
    rw [hres] at hrun
    cases er with
    | some e' =>
      simp only at hrun
      cases hrun
    | none =>
      simp only at hrun
      rcases List.mem_cons.mp hmem with h | h
      · have hp : p = path := congrArg Prod.fst h
        have hpr : pr = pr0 := congrArg Prod.snd h
        subst hp
        subst hpr
        have hfr := runPairs_frame mt lab1 lab2 rest stB (confl || c) hnd1
        rw [hrun] at hfr
        simp only at hfr
        exact ⟨st, stB, c, hres, rfl, rfl, hfr.1, hfr.2⟩
      · have hpne : p ≠ path := by
          intro he
          exact hnd1 (he ▸ List.mem_map.mpr ⟨(p, pr), h, rfl⟩)
        obtain ⟨stA, stB', c', hproc, hA1, hA2, hB1, hB2⟩ :=
          ih stB st1 (confl || c) c1 hnd2 hrun p pr h
        have hfr := processPair_frame mt lab1 lab2 st path pr0 hpne
        rw [hres] at hfr
        simp only at hfr
        exact ⟨stA, stB', c', hproc, hA1.trans hfr.1, hA2.trans hfr.2, hB1, hB2⟩

/-- Whether the per-path resolution of a pair reports a textual conflict:
both sides insert or both modify, with differing content, a readable base
file, and `diff3.Merge` flagging a conflict; every other handled case
resolves without conflict. -/
def pairConflicts
    (mt : String → String → String → String → String → Option (String × Bool))
    (lab1 lab2 : String) (pr : ChangePair) : Bool :=
  match pr.ours, pr.theirs with
  | some co, some ct =>
    match changeAction co, changeAction ct with
    | some oa, some ta =>
      if (oa = .modify ∧ ta = .modify) ∨ (oa = .insert ∧ ta = .insert) then
        if co.toContent = ct.toContent then false
        else if co.fromName = "" then false
        else
          match mt co.toContent co.fromContent ct.toContent lab1 lab2 with
          | none => false
          | some (_, confl) => confl
      else false
    | _, _ => false
  | _, _ => false

/-- The text the three-way merger produces for a both-sided pair (ours, base
and theirs content handed to `diff3.Merge`). -/
def pairMergedText
    (mt : String → String → String → String → String → Option (String × Bool))
    (lab1 lab2 : String) (pr : ChangePair) : Option String :=
  match pr.ours, pr.theirs with
  | some co, some ct =>
    (mt co.toContent co.fromContent ct.toContent lab1 lab2).map Prod.fst
  | _, _ => none

theorem wAdd_staged (st : RepoState) (path : String) :
    lookupA (wAdd st path).index path = lookupA (wAdd st path).worktree path := by
  unfold wAdd
  cases h : lookupA st.worktree path <;>
    simp [h, lookupA_setAssoc, lookupA_eraseAssoc]

theorem wRemove_staged (st : RepoState) (path : String) :
    lookupA (wRemove st path).index path = lookupA (wRemove st path).worktree path := by
  simp [wRemove, lookupA_eraseAssoc]

theorem processPair_flag
    (mt : String → String → String → String → String → Option (String × Bool))
    (lab1 lab2 : String) (st st1 : RepoState) (path : String) (pr : ChangePair)
    (c : Bool) (h : processPair mt lab1 lab2 st path pr = (st1, c, none)) :
    c = pairConflicts mt lab1 lab2 pr := by
  unfold processPair at h
  repeat' split at h
  all_goals simp_all [pairConflicts]

theorem processPair_conflict_shape
    (mt : String → String → String → String → String → Option (String × Bool))
    (lab1 lab2 : String) (st st1 : RepoState) (path : String) (pr : ChangePair)
    (h : processPair mt lab1 lab2 st path pr = (st1, true, none)) :
    lookupA st1.worktree path = pairMergedText mt lab1 lab2 pr ∧
      lookupA st1.index path = lookupA st.index path := by
  unfold processPair at h
  repeat' split at h
  all_goals (try (injection h with hA hBC))
  all_goals (try (injection hBC with hB hC))
  all_goals (try (cases hC))
  all_goals (try (subst hA))
  all_goals simp_all [pairMergedText, fsCreate, lookupA_setAssoc]

theorem processPair_staged
    (mt : String → String → String → String → String → Option (String × Bool))
    (lab1 lab2 : String) (st st1 : RepoState) (path : String) (pr : ChangePair)
    (hcase : (caseOf pr).isSome)
    (h : processPair mt lab1 lab2 st path pr = (st1, false, none)) :
    lookupA st1.index path = lookupA st1.worktree path := by
  unfold processPair at h
  repeat' split at h
  all_goals (try (injection h with hA hBC))
  all_goals (try (injection hBC with hB hC))
  all_goals (try (cases hC))
  all_goals (try (subst hA))
  all_goals
    first
      | (simp_all [caseOf]; done)
      | (exact wAdd_staged _ _)
      | (exact wRemove_staged _ _)

/-- Claim C2: when some path's three-way text merge reports a conflict (the
loop finishes with `mergeHasConflict` set and no error), `Merge` writes the
`MERGE_HEAD` conflict reference recording the incoming commit hash, returns
the merge-conflict error, and creates no commit; every conflicted path holds
the merged text (with markers) in the working tree while its index entry is
untouched (not staged), and every non-conflicted changed path is staged (its
index entry equals its working-tree state). -/
theorem merge_conflict_outcome (env : GitEnv) (st st1 : RepoState)
    (refName : String) (refHash headHash bh : Hash) (tc oc bc : Commit)
    (more : List Hash) (opts : MergeOptions)
    (hstrat : opts.strategy = FastForwardMerge ∨ opts.strategy = OrtMerge)
    (hhead : lookupA st.refs st.headName = some headHash)
    (htheir : lookupA st.commits refHash = some tc)
    (hour : lookupA st.commits headHash = some oc)
    (hff : isFastForward st.commits headHash refHash st.shallow.head? = some false)
    (hmb : env.mergeBase headHash refHash = some (bh :: more))
    (hbase : lookupA st.commits bh = some bc)
    (hwb : WfTree bc.tree) (hwo : WfTree oc.tree) (hwt : WfTree tc.tree)
    (hrun : runPairs env.mergeText (shortName st.headName) (shortName refName)
      (buildPairs (treeDiff bc.tree oc.tree) (treeDiff bc.tree tc.tree)) st false
      = (st1, true, none)) :
    (Merge env st refName refHash opts).result = some .mergeConflict ∧
      (Merge env st refName refHash opts).state
        = { st1 with refs := setAssoc st1.refs "MERGE_HEAD" refHash } ∧
      st1.commits = st.commits ∧ st1.refs = st.refs ∧
      ∀ p pr,
        (p, pr) ∈ buildPairs (treeDiff bc.tree oc.tree) (treeDiff bc.tree tc.tree) →
        if pairConflicts env.mergeText (shortName st.headName) (shortName refName) pr
        then
          lookupA st1.worktree p
              = pairMergedText env.mergeText (shortName st.headName)
                  (shortName refName) pr ∧
            lookupA st1.index p = lookupA st.index p
        else lookupA st1.index p = lookupA st1.worktree p := by
  have hcond : ¬ (opts.strategy ≠ OrtMerge ∧ opts.strategy ≠ FastForwardMerge ∧
      opts.strategy ≠ FastForwardOnly) := by
    rcases hstrat with h | h <;> simp [h, FastForwardMerge, FastForwardOnly, OrtMerge]
  have hffo : ¬ opts.strategy = FastForwardOnly := by
    rcases hstrat with h | h <;>
      simp [h, FastForwardMerge, FastForwardOnly, OrtMerge]
  have hfields := runPairs_fields env.mergeText (shortName st.headName)
    (shortName refName)
    (buildPairs (treeDiff bc.tree oc.tree) (treeDiff bc.tree tc.tree)) st false
  rw [hrun] at hfields
  simp only at hfields
  refine ⟨?_, ?_, hfields.1, hfields.2.1, ?_⟩
  · unfold Merge
    rw [if_neg hcond]
    simp [hhead, htheir, hour, hff, hmb, hbase, hffo, hrun]
  · unfold Merge
    rw [if_neg hcond]
    simp [hhead, htheir, hour, hff, hmb, hbase, hffo, hrun]
  · intro p pr hmem
    obtain ⟨stA, stB, c, hproc, hA1, hA2, hB1, hB2⟩ :=
      runPairs_mem env.mergeText (shortName st.headName) (shortName refName) _ st st1
        false true (buildPairs_keys_nodup _ _) hrun p pr hmem
    have hflag := processPair_flag _ _ _ _ _ _ _ _ hproc
    cases hc : pairConflicts env.mergeText (shortName st.headName)
        (shortName refName) pr with
    | true =>
      rw [hc] at hflag
      subst hflag
      obtain ⟨hw, hi⟩ := processPair_conflict_shape _ _ _ _ _ _ _ hproc
      simp only [if_pos]
      exact ⟨hB1.trans hw, hB2.trans (hi.trans hA2)⟩
    | false =>
      rw [hc] at hflag
      subst hflag
      have hst := processPair_staged _ _ _ _ _ _ _
        (plan_caseOf_isSome hwb hwo hwt hmem) hproc
      simp only [Bool.false_eq_true, if_false]
      exact hB2.trans (hst.trans hB1.symm)

/-- Witness environment whose text merger always reports a conflict. -/
def wEnvC : GitEnv :=
  ⟨fun _ _ => some ["base"], fun _ _ _ _ _ => some ("<<<<<<< conflict", true),
    fun _ _ => ""⟩

/-- Witness base commit. -/
def wCommitBase : Commit := ⟨[], [("f", "x")], "al", "al", "b0"⟩

/-- Witness ours commit (modifies `f`). -/
def wCommitOurs : Commit := ⟨["base"], [("f", "o")], "al", "al", "c1"⟩

/-- Witness theirs commit (modifies `f` differently). -/
def wCommitTheirs : Commit := ⟨["base"], [("f", "t")], "bo", "bo", "c2"⟩

/-- Witness repository before the conflicting merge. -/
def wStateC : RepoState :=
  ⟨[("a", wCommitOurs), ("b", wCommitTheirs), ("base", wCommitBase)],
    [("refs/heads/main", "a")], "refs/heads/main", [], [("f", "o")], [("f", "o")]⟩

/-- Witness repository after the loop: the conflicted text sits in the
working tree, unstaged. -/
def wStateC1 : RepoState := { wStateC with worktree := [("f", "<<<<<<< conflict")] }

theorem merge_conflict_outcome_witness :
    (Merge wEnvC wStateC "refs/heads/dev" "b" ⟨2, false⟩).result
        = some .mergeConflict ∧
      (Merge wEnvC wStateC "refs/heads/dev" "b" ⟨2, false⟩).state
        = { wStateC1 with refs := setAssoc wStateC1.refs "MERGE_HEAD" "b" } ∧
      wStateC1.commits = wStateC.commits ∧ wStateC1.refs = wStateC.refs ∧
      ∀ p pr, (p, pr) ∈ buildPairs (treeDiff wCommitBase.tree wCommitOurs.tree)
          (treeDiff wCommitBase.tree wCommitTheirs.tree) →
        if pairConflicts wEnvC.mergeText (shortName wStateC.headName)
            (shortName "refs/heads/dev") pr then
          lookupA wStateC1.worktree p = pairMergedText wEnvC.mergeText
              (shortName wStateC.headName) (shortName "refs/heads/dev") pr ∧
            lookupA wStateC1.index p = lookupA wStateC.index p
        else lookupA wStateC1.index p = lookupA wStateC1.worktree p :=
  merge_conflict_outcome wEnvC wStateC wStateC1 "refs/heads/dev" "b" "a" "base"
    wCommitTheirs wCommitOurs wCommitBase [] ⟨2, false⟩
    (by simp [OrtMerge]) (by decide) (by decide) (by decide)
    (by simp [wStateC, isFastForward, lookupA, dfsFound, wCommitBase, wCommitOurs,
      wCommitTheirs])
    rfl (by decide)
    (by constructor <;> decide) (by constructor <;> decide)
    (by constructor <;> decide) (by decide)

/-- Claim C6: when no path conflicted (the loop finishes with the flag clear
and no error), if the resulting working-tree status is clean — working tree
and index identical to ours' tree — `Merge` terminates successfully with no
new commit; otherwise it creates exactly one new commit whose parent list is
`[ours, theirs]` in that order and whose author and committer are copied from
the ours commit's metadata. -/
theorem merge_commit_outcome (env : GitEnv) (st st1 : RepoState)
    (refName : String) (refHash headHash bh : Hash) (tc oc bc : Commit)
    (more : List Hash) (opts : MergeOptions)
    (hstrat : opts.strategy = FastForwardMerge ∨ opts.strategy = OrtMerge)
    (hhead : lookupA st.refs st.headName = some headHash)
    (htheir : lookupA st.commits refHash = some tc)
    (hour : lookupA st.commits headHash = some oc)
    (hff : isFastForward st.commits headHash refHash st.shallow.head? = some false)
    (hmb : env.mergeBase headHash refHash = some (bh :: more))
    (hbase : lookupA st.commits bh = some bc)
    (hrun : runPairs env.mergeText (shortName st.headName) (shortName refName)
      (buildPairs (treeDiff bc.tree oc.tree) (treeDiff bc.tree tc.tree)) st false
      = (st1, false, none)) :
    st1.commits = st.commits ∧
      (if isClean st1 oc.tree then
        (Merge env st refName refHash opts).result = none ∧
          (Merge env st refName refHash opts).state = st1
       else
        (Merge env st refName refHash opts).result = none ∧
          ∃ h c, (Merge env st refName refHash opts).state.commits
              = (h, c) :: st1.commits ∧
            c.parents = [headHash, refHash] ∧
            c.author = oc.author ∧ c.committer = oc.committer) := by
  have hcond : ¬ (opts.strategy ≠ OrtMerge ∧ opts.strategy ≠ FastForwardMerge ∧
      opts.strategy ≠ FastForwardOnly) := by
    rcases hstrat with h | h <;> simp [h, FastForwardMerge, FastForwardOnly, OrtMerge]
  have hffo : ¬ opts.strategy = FastForwardOnly := by
    rcases hstrat with h | h <;>
      simp [h, FastForwardMerge, FastForwardOnly, OrtMerge]
  have hfields := runPairs_fields env.mergeText (shortName st.headName)
    (shortName refName)
    (buildPairs (treeDiff bc.tree oc.tree) (treeDiff bc.tree tc.tree)) st false
  rw [hrun] at hfields
  simp only at hfields
  refine ⟨hfields.1, ?_⟩
  cases hcl : isClean st1 oc.tree with
  | true =>
    simp only [if_pos]
    constructor
    · unfold Merge
      rw [if_neg hcond]
      simp [hhead, htheir, hour, hff, hmb, hbase, hffo, hrun, hcl]
    · unfold Merge
      rw [if_neg hcond]
      simp [hhead, htheir, hour, hff, hmb, hbase, hffo, hrun, hcl]
  | false =>
    simp only [Bool.false_eq_true, if_false]
    constructor
    · unfold Merge
      rw [if_neg hcond]
      simp [hhead, htheir, hour, hff, hmb, hbase, hffo, hrun, hcl, doCommit, lookupA]
    · refine ⟨"merge-" ++ toString st1.commits.length,
        ⟨[headHash, refHash], st1.index, oc.author, oc.committer,
          "Merge " ++ ("refs/heads/" ++ shortName st.headName) ++ " with " ++ refName⟩,
        ?_, rfl, rfl, rfl⟩
      unfold Merge
      rw [if_neg hcond]
      simp [hhead, htheir, hour, hff, hmb, hbase, hffo, hrun, hcl, doCommit, lookupA]

/-- Witness theirs commit for the clean three-way merge: modifies `g` only,
disjoint from ours' modification of `f`. -/
def wCommitTheirsG : Commit := ⟨["base"], [("f", "x"), ("g", "z")], "bo", "bo", "c3"⟩

/-- Witness base commit with two files. -/
def wCommitBase2 : Commit := ⟨[], [("f", "x"), ("g", "y")], "al", "al", "b2"⟩

/-- Witness ours commit with two files (modifies `f`). -/
def wCommitOurs2 : Commit := ⟨["base"], [("f", "o"), ("g", "y")], "al", "al", "c4"⟩

/-- Witness repository before the clean three-way merge. -/
def wStateN : RepoState :=
  ⟨[("a", wCommitOurs2), ("b", wCommitTheirsG), ("base", wCommitBase2)],
    [("refs/heads/main", "a")], "refs/heads/main", [],
    [("f", "o"), ("g", "y")], [("f", "o"), ("g", "y")]⟩

/-- Witness repository after the loop: both sides' changes applied and
staged. -/
def wStateN1 : RepoState :=
  { wStateN with worktree := [("f", "o"), ("g", "z")],
                 index := [("f", "o"), ("g", "z")] }

theorem merge_commit_outcome_witness :
    wStateN1.commits = wStateN.commits ∧
      (if isClean wStateN1 wCommitOurs2.tree then
        (Merge wEnvC wStateN "refs/heads/dev" "b" ⟨2, false⟩).result = none ∧
          (Merge wEnvC wStateN "refs/heads/dev" "b" ⟨2, false⟩).state = wStateN1
       else
        (Merge wEnvC wStateN "refs/heads/dev" "b" ⟨2, false⟩).result = none ∧
          ∃ h c, (Merge wEnvC wStateN "refs/heads/dev" "b" ⟨2, false⟩).state.commits
              = (h, c) :: wStateN1.commits ∧
            c.parents = ["a", "b"] ∧
            c.author = wCommitOurs2.author ∧ c.committer = wCommitOurs2.committer) :=
  merge_commit_outcome wEnvC wStateN wStateN1 "refs/heads/dev" "b" "a" "base"
    wCommitTheirsG wCommitOurs2 wCommitBase2 [] ⟨2, false⟩
    (by simp [OrtMerge]) (by decide) (by decide) (by decide)
    (by simp [wStateN, isFastForward, lookupA, dfsFound, wCommitBase2, wCommitOurs2,
      wCommitTheirsG])
    rfl (by decide) (by decide)

theorem wAdd_worktree (st : RepoState) (path : String) :
    (wAdd st path).worktree = st.worktree := by
  unfold wAdd
  split <;> rfl

theorem wAdd_fsCreate_at (st : RepoState) (p v : String) :
    lookupA (wAdd (fsCreate st p v) p).worktree p = some v ∧
      lookupA (wAdd (fsCreate st p v) p).index p = some v := by
  have hw : lookupA (fsCreate st p v).worktree p = some v := by
    simp [fsCreate, lookupA_setAssoc]
  constructor
  · rw [wAdd_worktree]
    exact hw
  · unfold wAdd
    simp [hw, lookupA_setAssoc]

/-- Claim C3: for every path changed on both sides with Insert/Insert or
Modify/Modify actions whose ours and theirs content hashes are identical,
`Merge` accepts the content silently: the iteration is exactly a stage of the
path (`w.Add`) for every possible text merger — so the three-way text merger
is never invoked on it — no conflict is reported for the path, and in the
final loop state the path is staged (index agrees with the working tree). -/
theorem merge_identical_change_silent
    (mt : String → String → String → String → String → Option (String × Bool))
    (lab1 lab2 : String) (pairs : List (String × ChangePair))
    (st st1 : RepoState) (fl : Bool) (p : String) (pr : ChangePair)
    (co ct : Change)
    (hnd : (keysA pairs).Nodup)
    (hrun : runPairs mt lab1 lab2 pairs st false = (st1, fl, none))
    (hmem : (p, pr) ∈ pairs)
    (ho : pr.ours = some co) (ht : pr.theirs = some ct)
    (hact : (changeAction co = some .modify ∧ changeAction ct = some .modify) ∨
      (changeAction co = some .insert ∧ changeAction ct = some .insert))
    (heq : co.toContent = ct.toContent) :
    (∀ (mtX : String → String → String → String → String → Option (String × Bool))
      (stX : RepoState),
      processPair mtX lab1 lab2 stX p pr = (wAdd stX p, false, none)) ∧
      pairConflicts mt lab1 lab2 pr = false ∧
      lookupA st1.index p = lookupA st1.worktree p := by
  have hstep : ∀ (mtX : String → String → String → String → String →
      Option (String × Bool)) (stX : RepoState),
      processPair mtX lab1 lab2 stX p pr = (wAdd stX p, false, none) := by
    intro mtX stX
    rcases hact with ⟨ha1, ha2⟩ | ⟨ha1, ha2⟩ <;>
      simp [processPair, ho, ht, ha1, ha2, heq]
  refine ⟨hstep, ?_, ?_⟩
  · rcases hact with ⟨ha1, ha2⟩ | ⟨ha1, ha2⟩ <;>
      simp [pairConflicts, ho, ht, ha1, ha2, heq]
  · obtain ⟨stA, stB, c, hproc, _, _, hB1, hB2⟩ :=
      runPairs_mem mt lab1 lab2 pairs st st1 false fl hnd hrun p pr hmem
    rw [hstep mt stA] at hproc
    injection hproc with h1 h2
    rw [hB2, hB1, ← h1]
    exact wAdd_staged stA p

/-- Claim C5: for every path one side deletes while the other inserts or
modifies it, the iteration writes the inserting/modifying side's content to
the working tree and stages the path, reporting no conflict; in the final
loop state the path holds the surviving content in both working tree and
index. -/
theorem merge_delete_vs_change
    (mt : String → String → String → String → String → Option (String × Bool))
    (lab1 lab2 : String) (pairs : List (String × ChangePair))
    (st st1 : RepoState) (fl : Bool) (p : String) (pr : ChangePair)
    (co ct : Change) (winner : String)
    (hnd : (keysA pairs).Nodup)
    (hrun : runPairs mt lab1 lab2 pairs st false = (st1, fl, none))
    (hmem : (p, pr) ∈ pairs)
    (ho : pr.ours = some co) (ht : pr.theirs = some ct)
    (hdm : ((changeAction co = some .insert ∨ changeAction co = some .modify) ∧
        changeAction ct = some .delete ∧ winner = co.toContent) ∨
      (changeAction co = some .delete ∧
        (changeAction ct = some .insert ∨ changeAction ct = some .modify) ∧
        winner = ct.toContent)) :
    (∀ stX : RepoState,
      processPair mt lab1 lab2 stX p pr
        = (wAdd (fsCreate stX p winner) p, false, none)) ∧
      pairConflicts mt lab1 lab2 pr = false ∧
      lookupA st1.worktree p = some winner ∧
      lookupA st1.index p = some winner := by
  have hstep : ∀ stX : RepoState,
      processPair mt lab1 lab2 stX p pr
        = (wAdd (fsCreate stX p winner) p, false, none) := by
    intro stX
    rcases hdm with ⟨ha1 | ha1, ha2, hw⟩ | ⟨ha1, ha2 | ha2, hw⟩ <;> subst hw <;>
      simp [processPair, ho, ht, ha1, ha2]
  refine ⟨hstep, ?_, ?_⟩
  · rcases hdm with ⟨ha1 | ha1, ha2, hw⟩ | ⟨ha1, ha2 | ha2, hw⟩ <;>
      simp [pairConflicts, ho, ht, ha1, ha2]
  · obtain ⟨stA, stB, c, hproc, _, _, hB1, hB2⟩ :=
      runPairs_mem mt lab1 lab2 pairs st st1 false fl hnd hrun p pr hmem
    rw [hstep stA] at hproc
    injection hproc with h1 h2
    rw [hB1, hB2, ← h1]
    exact ⟨(wAdd_fsCreate_at stA p winner).1, (wAdd_fsCreate_at stA p winner).2⟩

/-- Witness pair: both sides modify `f` to the same content. -/
def wPairEq : ChangePair := ⟨some ⟨"f", "x", "f", "n"⟩, some ⟨"f", "x", "f", "n"⟩⟩

/-- Witness state whose working tree already holds the shared content. -/
def wStateE : RepoState := ⟨[], [], "refs/heads/main", [], [("f", "n")], [("f", "n")]⟩

theorem merge_identical_change_silent_witness :
    (∀ (mtX : String → String → String → String → String → Option (String × Bool))
      (stX : RepoState),
      processPair mtX "main" "dev" stX "f" wPairEq = (wAdd stX "f", false, none)) ∧
      pairConflicts wEnvC.mergeText "main" "dev" wPairEq = false ∧
      lookupA wStateE.index "f" = lookupA wStateE.worktree "f" :=
  merge_identical_change_silent wEnvC.mergeText "main" "dev" [("f", wPairEq)]
    wStateE wStateE false "f" wPairEq ⟨"f", "x", "f", "n"⟩ ⟨"f", "x", "f", "n"⟩
    (by decide) (by decide) (by decide) rfl rfl
    (Or.inl ⟨by decide, by decide⟩) rfl

/-- Witness pair: ours modifies `f`, theirs deletes it. -/
def wPairDel : ChangePair := ⟨some ⟨"f", "x", "f", "o"⟩, some ⟨"f", "x", "", ""⟩⟩

/-- Witness state for the delete-versus-modify merge. -/
def wStateE2 : RepoState := ⟨[], [], "refs/heads/main", [], [("f", "o")], [("f", "o")]⟩

theorem merge_delete_vs_change_witness :
    (∀ stX : RepoState,
      processPair wEnvC.mergeText "main" "dev" stX "f" wPairDel
        = (wAdd (fsCreate stX "f" "o") "f", false, none)) ∧
      pairConflicts wEnvC.mergeText "main" "dev" wPairDel = false ∧
      lookupA wStateE2.worktree "f" = some "o" ∧
      lookupA wStateE2.index "f" = some "o" :=
  merge_delete_vs_change wEnvC.mergeText "main" "dev" [("f", wPairDel)]
    wStateE2 wStateE2 false "f" wPairDel ⟨"f", "x", "f", "o"⟩ ⟨"f", "x", "", ""⟩ "o"
    (by decide) (by decide) (by decide) rfl rfl
    (Or.inl ⟨Or.inr (by decide), by decide, rfl⟩)
